import Mathlib

/-!
The command parser and the pipeline executor of mishell.

A shallow embedding of `parse_command` and `process_command` of
`src/shell-skeleton.c`, and theorems about them.

Modelling conventions.

* A `char *` is modelled by the list of the bytes found in memory from the
  pointed position on.  The C string it denotes is the part before the first
  `NUL`; what follows the `NUL` is the memory behind the terminator (the code
  reads it in one place, after `pch[l] = splitters[0]`).  Reading past the end
  of the modelled list yields `NUL`.
* The capacity of `temp_buf[1024]` is modelled: a token that does not fit
  ends the run of `parse_command` there (`ending.overflow`), since the
  behaviour of the `strcpy` is undefined.  The capacity of `path[99]` is not
  modelled: the path is an unbounded list.
* `malloc` returns memory with arbitrary contents: the prior contents of the
  `struct command_t` allocated for a piped stage are a parameter (`fresh`).
* System calls may fail: their outcomes are parameters (`sys_t`).
-/

namespace Shell

/-! ## Characters and C strings -/

/-- A C string: its bytes without the terminator. -/
abbrev CStr := List Char

/-- The string terminator. -/
def NUL : Char := Char.ofNat 0

/-- The space character, `splitters[0]`. -/
def SPACE : Char := Char.ofNat 32

/-- The tab character, `splitters[1]`. -/
def TAB : Char := Char.ofNat 9

/-- The double quote character. -/
def DQUOTE : Char := Char.ofNat 34

/-- The single quote character. -/
def SQUOTE : Char := Char.ofNat 39

/-- The pipe character. -/
def PIPE : Char := Char.ofNat 124

/-- The ampersand. -/
def AMP : Char := Char.ofNat 38

/-- The question mark. -/
def QMARK : Char := Char.ofNat 63

/-- The character `<`. -/
def LT : Char := Char.ofNat 60

/-- The character `>`. -/
def GT : Char := Char.ofNat 62

/-- Function `strlen`: the number of bytes before the first `NUL`. -/
def strlen (p : List Char) : Nat := (p.takeWhile (fun c => c != NUL)).length

/-- The C string found at a pointer: the bytes before the first `NUL`. -/
def cstr (p : List Char) : CStr := p.takeWhile (fun c => c != NUL)

/-- The test `strchr(splitters, c) != NULL` with `splitters = " \t"`; `strchr`
also finds the terminator of `splitters`. -/
def in_splitters (c : Char) : Bool := c == SPACE || c == TAB || c == NUL

/-- Membership in the delimiter set of `strtok(_, " \t")`; also the test
`c == ' ' || c == '\t'` of the loop that skips blanks after a pipe. -/
def is_delim (c : Char) : Bool := c == SPACE || c == TAB

/-- The loop `while (len > 0 && strchr(splitters, buf[0]) != NULL) { buf++; len--; }`,
run from the given `len`. -/
def trim_left : Nat → List Char → List Char × Nat
  | 0, buf => (buf, 0)
  | len + 1, buf =>
    if in_splitters (buf.headD NUL) then trim_left len buf.tail else (buf, len + 1)

/-- The loop `while (len > 0 && strchr(splitters, buf[len - 1]) != NULL) buf[--len] = 0;`. -/
def trim_right : Nat → List Char → List Char × Nat
  | 0, buf => (buf, 0)
  | len + 1, buf =>
    if in_splitters (buf.getD len NUL) then trim_right len (buf.set len NUL) else (buf, len + 1)

/-- One call of `strtok(_, " \t")` (glibc), started at the position `s` (the
argument of the first call, the saved position of a later call).  The result
is the returned token, if any, paired with the memory that follows the byte
ending it, and the new saved position.  A token ended by a delimiter has that
delimiter overwritten by `NUL` and the saved position right behind it; a
token ended by the string terminator leaves the saved position on that
terminator. -/
def strtok (s : List Char) : Option (CStr × List Char) × List Char :=
  match s.dropWhile is_delim with
  | [] => (none, [])
  | c :: s1 =>
    if c == NUL then (none, c :: s1)
    else
      let tok := (c :: s1).takeWhile (fun x => !is_delim x && x != NUL)
      match (c :: s1).dropWhile (fun x => !is_delim x && x != NUL) with
      | [] => (some (tok, []), [])
      | d :: after => if d == NUL then (some (tok, after), d :: after) else (some (tok, after), after)

/-! ## The command structure -/

/-- The array `char *redirects[3]`; `none` is the null pointer. -/
structure redirects_t where
  /-- Slot 0, input redirection. -/
  r0 : Option CStr
  /-- Slot 1, output redirection. -/
  r1 : Option CStr
  /-- Slot 2, appending output redirection. -/
  r2 : Option CStr
deriving DecidableEq, Repr

/-- The store `redirects[i] = p`. -/
def redirects_t.set (r : redirects_t) (i : Int) (p : Option CStr) : redirects_t :=
  if i = 0 then { r with r0 := p }
  else if i = 1 then { r with r1 := p }
  else if i = 2 then { r with r2 := p }
  else r

/-- The read `redirects[i]`. -/
def redirects_t.get (r : redirects_t) (i : Int) : Option CStr :=
  if i = 0 then r.r0 else if i = 1 then r.r1 else if i = 2 then r.r2 else none

/-- The C `struct command_t`.  A pointer is `none` when null; an entry of
`args` is `none` when it is the null pointer. -/
inductive command_t where
  | mk (name : CStr) (background : Bool) (auto_complete : Bool) (arg_count : Nat)
      (args : List (Option CStr)) (redirects : redirects_t) (next : Option command_t)
deriving Repr

/-- Field `name`. -/
def command_t.name : command_t → CStr
  | .mk n _ _ _ _ _ _ => n

/-- Field `background`. -/
def command_t.background : command_t → Bool
  | .mk _ b _ _ _ _ _ => b

/-- Field `auto_complete`. -/
def command_t.auto_complete : command_t → Bool
  | .mk _ _ a _ _ _ _ => a

/-- Field `arg_count`. -/
def command_t.arg_count : command_t → Nat
  | .mk _ _ _ n _ _ _ => n

/-- Field `args`. -/
def command_t.args : command_t → List (Option CStr)
  | .mk _ _ _ _ a _ _ => a

/-- Field `redirects`. -/
def command_t.redirects : command_t → redirects_t
  | .mk _ _ _ _ _ r _ => r

/-- Field `next`. -/
def command_t.next : command_t → Option command_t
  | .mk _ _ _ _ _ _ x => x

/-- The store `command->name = v`. -/
def command_t.set_name : command_t → CStr → command_t
  | .mk _ b a n g r x, v => .mk v b a n g r x

/-- The store `command->background = v`. -/
def command_t.set_background : command_t → Bool → command_t
  | .mk m _ a n g r x, v => .mk m v a n g r x

/-- The store `command->auto_complete = v`. -/
def command_t.set_auto_complete : command_t → Bool → command_t
  | .mk m b _ n g r x, v => .mk m b v n g r x

/-- The store `command->arg_count = v`. -/
def command_t.set_arg_count : command_t → Nat → command_t
  | .mk m b a _ g r x, v => .mk m b a v g r x

/-- The store `command->args = v`. -/
def command_t.set_args : command_t → List (Option CStr) → command_t
  | .mk m b a n _ r x, v => .mk m b a n v r x

/-- The store `command->redirects[i] = v`. -/
def command_t.set_redirect : command_t → Int → Option CStr → command_t
  | .mk m b a n g r x, i, v => .mk m b a n g (r.set i v) x

/-- The store `command->next = v`. -/
def command_t.set_next : command_t → Option command_t → command_t
  | .mk m b a n g r _, v => .mk m b a n g r v

/-- The structure after `memset(command, 0, sizeof(struct command_t))`, as
`main` prepares it. -/
def command_t.zeroed : command_t :=
  .mk [] false false 0 [] ⟨none, none, none⟩ none

/-! ## `parse_command` -/

/-- Lines 120-152 of `parse_command`: trimming, the two flags, the first
`strtok` call and the name; `command->args = malloc(sizeof(char *))` with
`arg_index = 0` is the empty argument list.  Returns the command and the
saved position of `strtok`. -/
def parse_prologue (buf : List Char) (command : command_t) : command_t × List Char :=
  let len := strlen buf
  let (buf, len) := trim_left len buf
  let (buf, len) := trim_right len buf
  let command :=
    if len > 0 && buf.getD (len - 1) NUL == QMARK then command.set_auto_complete true
    else command
  let command :=
    if len > 0 && buf.getD (len - 1) NUL == AMP then command.set_background true
    else command
  match strtok buf with
  | (none, save) => ((command.set_name []).set_args [], save)
  | (some (pch, _), save) => ((command.set_name (cstr pch)).set_args [], save)

/-- Lines 205-246 of `parse_command`: what the loop body does with a trimmed,
non-empty token `arg` that is not the pipe. -/
def store_token (arg : CStr) (command : command_t) : command_t :=
  let len := arg.length
  if arg = [AMP] then command
  else
    let redirect_index : Int := -1
    let redirect_index : Int := if arg.headD NUL == LT then 0 else redirect_index
    let (redirect_index, arg, len) :=
      if arg.headD NUL == GT then
        if len > 1 && arg.getD 1 NUL == GT then ((2 : Int), arg.tail, len - 1)
        else ((1 : Int), arg, len)
      else (redirect_index, arg, len)
    if redirect_index != -1 then
      command.set_redirect redirect_index (some arg.tail)
    else
      let arg :=
        if len > 2 &&
            ((arg.headD NUL == DQUOTE && arg.getD (len - 1) NUL == DQUOTE) ||
             (arg.headD NUL == SQUOTE && arg.getD (len - 1) NUL == SQUOTE))
        then (arg.take (len - 1)).tail
        else arg
      command.set_args (command.args ++ [some arg])

/-- The loop `for (int i = command->arg_count - 2; i > 0; --i) args[i] = args[i - 1];`,
run from the given `i`. -/
def shift_args : Nat → List (Option CStr) → List (Option CStr)
  | 0, args => args
  | i + 1, args => shift_args i (args.set (i + 1) (args.getD i none))

/-- Lines 248-263 of `parse_command`: `arg_count = arg_index`, the array grown
by two slots (their contents are indeterminate and both are overwritten
below), the shift, the copy of the name and the null sentinel. -/
def parse_epilogue (command : command_t) : command_t :=
  let arg_index := command.args.length
  let arg_count := arg_index + 2
  let args := command.args ++ [none, none]
  let args := shift_args (arg_count - 2) args
  let args := args.set 0 (some command.name)
  let args := args.set (arg_count - 1) none
  (command.set_arg_count arg_count).set_args args

/-- How a run of `parse_command` ends. -/
inductive ending where
  /-- The token loop was left by `break` and the function returned. -/
  | returned
  /-- A call `strcpy(arg, pch)` did not fit `temp_buf`: the behaviour of the
  program is undefined from there on. -/
  | overflow
deriving DecidableEq, Repr

/-- The token loop of `parse_command` (lines 160-247), started with the saved
position of `strtok`.  The copy `strcpy(arg, pch)` writes `strlen(pch) + 1`
bytes into `char temp_buf[1024]`; when they do not fit, the run ends there,
with the structure as it is at that point.  At a pipe the body of the
recursive call `parse_command(pch + index, c)` is run on the allocated
structure `c`, whose prior contents are `fresh 0` (`fresh k` stands for the
structure allocated `k` calls deeper), and the loop goes on (`continue`) from
the position `strtok` was left at; `command->next = c` is stored after the
call has returned.  The first argument bounds the number of iterations. -/
def parse_loop : Nat → (Nat → command_t) → List Char → command_t →
    Option (ending × command_t × List Char)
  | 0, _, _, _ => none
  | fuel + 1, fresh, save, command =>
    match strtok save with
    | (none, save) => some (ending.returned, command, save)
    | (some (pch, after), save) =>
      if 1024 < strlen pch + 1 then some (ending.overflow, command, save)
      else
        let arg := cstr pch
        let len := strlen arg
        if len = 0 then parse_loop fuel fresh save command
        else
          let (arg, len) := trim_left len arg
          let (arg, len) := trim_right len arg
          if len = 0 then parse_loop fuel fresh save command
          else
            let arg := arg.take len
            if arg = [PIPE] then
              let l := strlen pch
              let mem := pch.take l ++ SPACE :: after
              let rest := (mem.drop 1).dropWhile is_delim
              let (c, save) := parse_prologue rest (fresh 0)
              match parse_loop fuel (fun k => fresh (k + 1)) save c with
              | none => none
              | some (ending.overflow, _, save) => some (ending.overflow, command, save)
              | some (ending.returned, c, save) =>
                parse_loop fuel fresh save (command.set_next (some (parse_epilogue c)))
            else parse_loop fuel fresh save (store_token arg command)

/-- Function `parse_command(buf, command)` with a bound on the loop
iterations: the returned `int` (none when the run ends in an overflow of
`temp_buf`), the structure `*command` at the end of the run and the position
`strtok` is left at. -/
def parse_command_fuel (fuel : Nat) (buf : List Char) (command : command_t)
    (fresh : Nat → command_t) : Option (Option Int × command_t × List Char) :=
  let (c, save) := parse_prologue buf command
  match parse_loop fuel fresh save c with
  | none => none
  | some (ending.overflow, c, save) => some (none, c, save)
  | some (ending.returned, c, save) => some (some 0, parse_epilogue c, save)

/-- The structure `*command` at the end of the run of
`parse_command(buf, command)`: after the return, or, when a token does not
fit `temp_buf`, at the copy that overflows. -/
def parse_command (buf : List Char) (command : command_t) (fresh : Nat → command_t) :
    command_t :=
  match parse_command_fuel (buf.length + 1) buf command fresh with
  | none => command
  | some (_, c, _) => c

/-- The value `parse_command(buf, command)` returns, none when the run ends
in an overflow of `temp_buf`. -/
def parse_command_value (buf : List Char) (command : command_t) (fresh : Nat → command_t) :
    Option Int :=
  match parse_command_fuel (buf.length + 1) buf command fresh with
  | none => none
  | some (v, _, _) => v

/-! ## Processes and file descriptors -/

/-- What an open file descriptor refers to: an open file the shell process
already held (identified by a number), an end of the `k`-th pipe created, or
a file opened by path with the given `open` flags. -/
inductive endpoint where
  | inherited (id : Nat)
  | pipe_read (k : Nat)
  | pipe_write (k : Nat)
  | opened (path : CStr) (flags : String)
deriving DecidableEq, Repr

/-- The descriptor table of a process: the open descriptors and what they refer to. -/
abbrev fd_table := List (Nat × endpoint)

/-- What descriptor `fd` refers to, `none` when it is not open. -/
def fd_get (t : fd_table) (fd : Nat) : Option endpoint := t.lookup fd

/-- Call `close(fd)`; it fails without effect on a descriptor that is not open. -/
def sys_close (t : fd_table) (fd : Nat) : fd_table := t.filter (fun p => p.1 != fd)

/-- Call `dup2(oldfd, newfd)`: it fails without effect when `oldfd` is not
open, does nothing when both are equal, and otherwise makes `newfd` refer to
what `oldfd` refers to, closing `newfd` first. -/
def sys_dup2 (t : fd_table) (oldfd newfd : Nat) : fd_table :=
  match fd_get t oldfd with
  | none => t
  | some e => if oldfd = newfd then t else (newfd, e) :: sys_close t newfd

/-- The lowest descriptor number that is not open.  It is found among the
numbers up to the size of the table; the default, a number above every open
descriptor, only makes the function total. -/
def lowest_free (t : fd_table) : Nat :=
  ((List.range (t.length + 1)).find? (fun n => (fd_get t n).isNone)).getD
    ((t.map (fun p => p.1)).foldr max 0 + 1)

/-- A successful call `pipe(pipes)` creating the `k`-th pipe: the new table,
`pipes[0]` (read end) and `pipes[1]` (write end), the two lowest free
descriptors. -/
def sys_pipe (t : fd_table) (k : Nat) : fd_table × Nat × Nat :=
  let r := lowest_free t
  let t1 := (r, endpoint.pipe_read k) :: t
  let w := lowest_free t1
  ((w, endpoint.pipe_write k) :: t1, r, w)

/-- A process at its `execv(path, args)` call, with its descriptor table.
When the call fails the process ends by `exit(0)`. -/
structure proc_t where
  /-- First argument of `execv`. -/
  path : CStr
  /-- Second argument of `execv`. -/
  args : List (Option CStr)
  /-- The descriptor table at the call. -/
  fds : fd_table
deriving DecidableEq, Repr

/-- Outcomes of the system and library calls, parameters of the model.  In
the shell process the calls of one `process_command` are numbered from 0. -/
structure sys_t where
  /-- Whether the `n`-th `fork()` of the shell process creates a child. -/
  fork_ok : Nat → Bool
  /-- Whether `chdir(path)` succeeds. -/
  chdir_ok : Option CStr → Bool
  /-- Whether `mkdir(path, 0777)` succeeds. -/
  mkdir_ok : Option CStr → Bool
  /-- Whether `rmdir(path)` succeeds. -/
  rmdir_ok : Option CStr → Bool
  /-- Whether `fopen(path, "r")` succeeds. -/
  fopen_ok : Option CStr → Bool
  /-- Function `atoi`. -/
  atoi : Option CStr → Int
  /-- Whether, in the spawned child, `pipe()` of loop iteration `k` succeeds. -/
  pipe_ok : Nat → Bool
  /-- Whether, in the spawned child, `fork()` of loop iteration `k` creates a process. -/
  child_fork_ok : Nat → Bool
  /-- The indeterminate contents of `int pipes[2]` when `pipe()` failed in iteration `k`. -/
  garbage : Nat → Nat × Nat

/-- The path `"/bin/"` followed by the name: `char path[99] = "/bin/"; strcat(path, name)`. -/
def bin_path (name : CStr) : CStr := ['/', 'b', 'i', 'n', '/'] ++ name

/-- The child branch of `process_command` (lines 538-563), from loop
iteration `k` on, in a process with descriptor table `fds`: the processes
that reach their `execv`, in stage order, and the number of pipes created.
Each iteration with a next stage calls `pipe` and `fork`; the new process
closes `pipes[0]`, binds descriptor 1 to `pipes[1]` and executes the current
stage; the looping process closes `pipes[1]`, binds descriptor 0 to
`pipes[0]` and goes on with `command->next`; it executes the last stage
itself. -/
def child_loop (sys : sys_t) : Nat → fd_table → command_t → List proc_t × Nat
  | _, fds, .mk name _ _ _ args _ none => ([⟨bin_path name, args, fds⟩], 0)
  | k, fds, .mk name _ _ _ args _ (some nx) =>
    let (fds1, p0, p1) := if sys.pipe_ok k then sys_pipe fds k else (fds, sys.garbage k)
    let made := if sys.pipe_ok k then 1 else 0
    let stage : List proc_t :=
      if sys.child_fork_ok k then [⟨bin_path name, args, sys_dup2 (sys_close fds1 p0) p1 1⟩]
      else []
    let rest := child_loop sys (k + 1) (sys_dup2 (sys_close fds1 p1) p0 0) nx
    (stage ++ rest.1, made + rest.2)

/-! ## `process_command` -/

/-- Return code `SUCCESS`. -/
def SUCCESS : Int := 0

/-- Return code `EXIT`. -/
def EXIT : Int := 1

/-- Return code `UNKNOWN`. -/
def UNKNOWN : Int := 2

/-- What the shell process does, in order. -/
inductive action where
  /-- A call `fork()`: whether a child was created, the processes the child
  gives rise to (itself and its descendants) at their `execv`, and the
  number of pipes the child creates. -/
  | fork (created : Bool) (procs : List proc_t) (pipes : Nat)
  /-- A call `wait(0)`. -/
  | wait
  /-- Text written by `printf` or `perror` (the format string). -/
  | print (text : String)
  /-- Another system or library call made by a builtin handler. -/
  | call (name : String) (args : List (Option CStr))
deriving DecidableEq, Repr

/-- The outcome of `process_command` in the shell process. -/
structure result_t where
  /-- The returned `int`. -/
  code : Int
  /-- The global `kernelLoaded` afterwards. -/
  kernelLoaded : Bool
  /-- What was done, in order. -/
  actions : List action
deriving DecidableEq, Repr

/-- The `n`-th call `fork()` of the shell process, for a child that would
give rise to the given processes and pipes: nothing is created when it fails. -/
def do_fork (sys : sys_t) (n : Nat) (child : List proc_t × Nat) : action :=
  if sys.fork_ok n then action.fork true child.1 child.2 else action.fork false [] 0

/-- The pattern `pid = fork(); if (pid == 0) { execv(args[0], args); exit(0); } else { wait(0); }`
of the helpers running `/bin/sudo`, as the `n`-th fork of the shell process. -/
def run_sudo (sys : sys_t) (fds : fd_table) (n : Nat) (args : List (Option CStr)) :
    List action :=
  [do_fork sys n ([⟨(args.headD none).getD [], args, fds⟩], 0), action.wait]

/-- Function `clear_kernel_log`. -/
def clear_kernel_log (sys : sys_t) (fds : fd_table) (n : Nat) : Int × List action :=
  (SUCCESS, run_sudo sys fds n
    [some "/bin/sudo".toList, some "dmesg".toList, some "-C".toList, none])

/-- Function `print_kernel_log`. -/
def print_kernel_log (sys : sys_t) (fds : fd_table) (n : Nat) : Int × List action :=
  (SUCCESS, run_sudo sys fds n [some "/bin/sudo".toList, some "dmesg".toList, none])

/-- Function `execute_psvis`; `inputPID` stands for the text `PID=<number>`. -/
def execute_psvis (sys : sys_t) (fds : fd_table) (kl : Bool) (command : command_t) : result_t :=
  if command.arg_count != 3 then ⟨UNKNOWN, kl, [action.print "Invalid argument number!"]⟩
  else
    let PID := sys.atoi (command.args.getD 1 none)
    if PID ≤ 0 then ⟨UNKNOWN, kl, [action.print "Invalid parameter!"]⟩
    else
      let a1 := (clear_kernel_log sys fds 0).2
      let a2 := run_sudo sys fds 1
        [some "/bin/sudo".toList, some "insmod".toList, some "module/mymodule.ko".toList,
          some "inputPID".toList, none]
      let a3 := (print_kernel_log sys fds 2).2
      ⟨SUCCESS, true, a1 ++ a2 ++ a3⟩

/-- Function `execute_hdiff`. -/
def execute_hdiff (command : command_t) : Int × List action :=
  if command.arg_count != 5 then
    (UNKNOWN, [action.print "Usage: hdiff [-a | -b] file1 file2"])
  else if command.args.getD 1 none = some "-b".toList then
    (SUCCESS, [action.call "compareBinaryFiles" [command.args.getD 2 none, command.args.getD 3 none]])
  else if command.args.getD 1 none != some "-a".toList then
    (UNKNOWN, [action.print "Error: Invalid mode"])
  else
    (SUCCESS, [action.call "compareTextFiles" [command.args.getD 2 none, command.args.getD 3 none]])

/-- Function `mkdir_command`. -/
def mkdir_command (sys : sys_t) (command : command_t) : Int × List action :=
  if command.arg_count != 3 then (UNKNOWN, [action.print "Usage: mkdir <directory_name>"])
  else if !sys.mkdir_ok (command.args.getD 1 none) then
    (UNKNOWN, [action.call "mkdir" [command.args.getD 1 none], action.print "mkdir"])
  else
    (SUCCESS, [action.call "mkdir" [command.args.getD 1 none],
      action.print "Directory '%s' created successfully."])

/-- Function `rmdir_command`. -/
def rmdir_command (sys : sys_t) (command : command_t) : Int × List action :=
  if command.arg_count != 3 then (UNKNOWN, [action.print "Usage: rmdir <directory_name>"])
  else if !sys.rmdir_ok (command.args.getD 1 none) then
    (UNKNOWN, [action.call "rmdir" [command.args.getD 1 none], action.print "rmdir"])
  else
    (SUCCESS, [action.call "rmdir" [command.args.getD 1 none],
      action.print "Directory '%s' removed successfully."])

/-- Function `execute_countlines`. -/
def execute_countlines (sys : sys_t) (command : command_t) : Int × List action :=
  if command.arg_count != 3 then (UNKNOWN, [action.print "Usage: countlines <file>"])
  else if !sys.fopen_ok (command.args.getD 1 none) then
    (UNKNOWN, [action.call "fopen" [command.args.getD 1 none], action.print "Error opening file"])
  else
    (SUCCESS, [action.call "fopen" [command.args.getD 1 none],
      action.print "Number of lines in %s: %d"])

/-- Function `execute_scoutword`; the result line is one of two texts,
depending on the file.  The scan of the file (lines 815-821) reads the file's
contents and has no counterpart here; its inner loop advances by
`strlen(search_word)`, so it ends when the word is not empty, which holds for
every argument the parser stores (`parsed_args_ne_nil`). -/
def execute_scoutword (sys : sys_t) (command : command_t) : Int × List action :=
  if command.arg_count != 4 then (UNKNOWN, [action.print "Usage: scoutword <word> <file>"])
  else if !sys.fopen_ok (command.args.getD 2 none) then
    (UNKNOWN, [action.call "fopen" [command.args.getD 2 none], action.print "Error opening file"])
  else
    (SUCCESS, [action.call "fopen" [command.args.getD 2 none],
      action.print "Occurrences of '%s' in %s: %d"])

/-- Function `process_command` in the shell process, whose descriptor table
is `fds` and whose global `kernelLoaded` holds `kl`.  The `fork()` of line
521 returns in the shell process a value other than 0 whether or not a child
was created, so the shell takes the `else` branch: it waits unless
`background` is set and returns `SUCCESS`.  The child runs `child_loop` and
never returns.  Both branches leave the function, so the statements after
them (the `command not found` message and `return UNKNOWN`) are never
reached and have no counterpart here. -/
def process_command (sys : sys_t) (fds : fd_table) (kl : Bool) (command : command_t) :
    result_t :=
  if command.name = [] then ⟨SUCCESS, kl, []⟩
  else if command.name = "exit".toList then
    if kl then
      ⟨EXIT, false, run_sudo sys fds 0
        [some "/bin/sudo".toList, some "rmmod".toList, some "module/mymodule.ko".toList, none]⟩
    else ⟨EXIT, kl, []⟩
  else if command.name = "cd".toList ∧ command.arg_count > 0 then
    if !sys.chdir_ok (command.args.getD 1 none) then
      ⟨SUCCESS, kl, [action.call "chdir" [command.args.getD 1 none], action.print "-%s: %s: %s"]⟩
    else ⟨SUCCESS, kl, [action.call "chdir" [command.args.getD 1 none]]⟩
  else if command.name = "hdiff".toList then
    ⟨(execute_hdiff command).1, kl, (execute_hdiff command).2⟩
  else if command.name = "mkdir".toList then
    ⟨(mkdir_command sys command).1, kl, (mkdir_command sys command).2⟩
  else if command.name = "rmdir".toList then
    ⟨(rmdir_command sys command).1, kl, (rmdir_command sys command).2⟩
  else if command.name = "countlines".toList then
    ⟨(execute_countlines sys command).1, kl, (execute_countlines sys command).2⟩
  else if command.name = "scoutword".toList then
    ⟨(execute_scoutword sys command).1, kl, (execute_scoutword sys command).2⟩
  else if command.name = "psvis".toList then
    execute_psvis sys fds kl command
  else
    let spawn := do_fork sys 0 (child_loop sys 0 fds command)
    if !command.background then ⟨SUCCESS, kl, [spawn, action.wait]⟩
    else ⟨SUCCESS, kl, [spawn]⟩

/-- The part of the body of the `while (1)` loop of `main` that follows
`prompt` (lines 452-457), for a command already parsed: the outcome of
`process_command`, and whether the loop is left (`if (code == EXIT) break;`).
Neither `main` nor `prompt` looks at `auto_complete` or `background`. -/
def main_step (sys : sys_t) (fds : fd_table) (kl : Bool) (command : command_t) :
    result_t × Bool :=
  let r := process_command sys fds kl command
  (r, r.code == EXIT)

/-! ## Vocabulary of the specification -/

/-- A byte sequence that contains no `NUL`: the content of a C string. -/
def NF (s : List Char) : Prop := ∀ c ∈ s, c ≠ NUL

/-- Memory that begins with a string terminator (or is the end of the
modelled memory, which reads as `NUL`). -/
def Term (r : List Char) : Prop := r.headD NUL = NUL

/-- A run of spaces and tabs. -/
def AllDelim (w : List Char) : Prop := ∀ c ∈ w, is_delim c = true

/-- A token: a non-empty run of bytes that are neither space, tab nor `NUL`. -/
def Tok (t : List Char) : Prop := t ≠ [] ∧ ∀ c ∈ t, is_delim c = false ∧ c ≠ NUL

/-- The whitespace-split tokens of a line: the non-empty pieces between
spaces and tabs, in order. -/
def tokens (s : CStr) : List CStr := (s.splitOnP is_delim).filter (fun t => !t.isEmpty)

/-- The memory and the length `len` after the two trimming loops of `parse_command`. -/
def trimmed (buf : List Char) : List Char × Nat :=
  trim_right (trim_left (strlen buf) buf).2 (trim_left (strlen buf) buf).1


/-- The scan of a line by successive `strtok` calls, as a relation between a
`NUL`-free string and its token list. -/
inductive Scan : List Char → List CStr → Prop where
  | done (w : List Char) : AllDelim w → Scan w []
  | last (w t : List Char) : AllDelim w → Tok t → Scan (w ++ t) [t]
  | cons (w t : List Char) (d : Char) (s : List Char) (ts : List CStr) :
      AllDelim w → Tok t → is_delim d = true → Scan s ts → Scan (w ++ (t ++ d :: s)) (t :: ts)

/-- A string that neither begins nor ends with a blank, and is not empty. -/
def Core (s : List Char) : Prop :=
  NF s ∧ (∃ c x, s = c :: x ∧ is_delim c = false) ∧ (∃ y e, s = y ++ [e] ∧ is_delim e = false)

/-- A line with its leading and trailing spaces and tabs removed. -/
def trim_ws (s : CStr) : CStr := (s.dropWhile is_delim).rdropWhile is_delim

/-- The normal-argument rule of the parser, in the words of the
specification: a token wrapped in matching single or double quotes at both
ends and longer than two characters loses one quote character at each end. -/
def strip_quotes (t : CStr) : CStr :=
  if 2 < t.length ∧ ((t.head? = some DQUOTE ∧ t.getLast? = some DQUOTE) ∨
      (t.head? = some SQUOTE ∧ t.getLast? = some SQUOTE)) then t.tail.dropLast
  else t

/-- The redirection rule: a token starting with `<` names the path of slot 0,
one starting with `>>` the path of slot 2, another one starting with `>` the
path of slot 1; the path is the token without the marker. -/
def redirect_of (t : CStr) : Option (Int × CStr) :=
  if t.head? = some LT then some (0, t.tail)
  else if t.head? = some GT then
    if t.tail.head? = some GT then some (2, t.tail.tail) else some (1, t.tail)
  else none

/-- A normal argument: a token that is neither `&` nor a redirection. -/
def is_normal (t : CStr) : Bool := decide (t ≠ [AMP]) && (redirect_of t).isNone

/-- The normal arguments among a stage's tokens, in order, with their quotes stripped. -/
def normal_args (ts : List CStr) : List CStr := (ts.filter is_normal).map strip_quotes

/-- The effect of one token on the redirection slots. -/
def apply_redirect (r : redirects_t) (t : CStr) : redirects_t :=
  if t = [AMP] then r
  else match redirect_of t with
    | some (i, p) => r.set i (some p)
    | none => r

/-- The tokens of the first stage of a line after its name: those that
follow the first token, up to the first one that is exactly the pipe. -/
def stage_tokens (ts : List CStr) : List CStr :=
  ts.tail.takeWhile (fun t => decide (t ≠ [PIPE]))

/-- The command after the loop body has handled the given tokens, none of
which is the pipe, in order. -/
def run_tokens (cmd : command_t) (ts : List CStr) : command_t :=
  ts.foldl (fun c t => store_token t c) cmd

/-- The two flags as the prologue of `parse_command` sets them: each is set
when the trimmed line ends with its character, and is never cleared. -/
def with_flags (c : command_t) (s : CStr) : command_t :=
  let c1 := if (trim_ws s).getLast? = some QMARK then c.set_auto_complete true else c
  if (trim_ws s).getLast? = some AMP then c1.set_background true else c1

/-- Lines 135-143 of `parse_command` on the trimmed buffer `tb.1` of length
`tb.2`: the two flag tests. -/
def code_flags (c : command_t) (tb : List Char × Nat) : command_t :=
  let c1 := if tb.2 > 0 && tb.1.getD (tb.2 - 1) NUL == QMARK then c.set_auto_complete true else c
  if tb.2 > 0 && tb.1.getD (tb.2 - 1) NUL == AMP then c1.set_background true else c1

/-- The stages of a chain, following `next` until the null pointer. -/
def chain : command_t → List command_t
  | .mk m b a n g r none => [.mk m b a n g r none]
  | .mk m b a n g r (some x) => .mk m b a n g r (some x) :: chain x

/-- The line `echo "hello"`. -/
def line_echo_hello : List Char :=
  ['e', 'c', 'h', 'o', SPACE, DQUOTE, 'h', 'e', 'l', 'l', 'o', DQUOTE]

/-- The line `"ls"`, quotes included. -/
def line_quoted_ls : List Char := [DQUOTE, 'l', 's', DQUOTE]

/-- The line `a & b`. -/
def line_a_amp_b : List Char := ['a', SPACE, AMP, SPACE, 'b']

/-- The line `ls&`. -/
def line_ls_amp : List Char := ['l', 's', AMP]

/-- The line `sleep 5&`. -/
def line_sleep_5_amp : List Char := ['s', 'l', 'e', 'e', 'p', SPACE, '5', AMP]

/-- The line `sleep 5 &`. -/
def line_sleep_5_sp_amp : List Char := ['s', 'l', 'e', 'e', 'p', SPACE, '5', SPACE, AMP]

/-- The line `ls?`. -/
def line_ls_qmark : List Char := ['l', 's', QMARK]

/-- The line `a | b | c`. -/
def line_a_b_c : List Char := ['a', SPACE, PIPE, SPACE, 'b', SPACE, PIPE, SPACE, 'c']

/-- A buffer holding the line `a |` and, behind its terminator, the stale
bytes `z` of an earlier, longer input. -/
def buf_a_pipe_stale : List Char := ['a', SPACE, PIPE, NUL, 'z', NUL]

/-- Allocated structures that all hold zero bytes. -/
def fresh_zeroed : Nat → command_t := fun _ => command_t.zeroed

/-- Allocated structures whose `next` field holds a stale non-null pointer
(here to a structure named `x`), all other bytes being zero. -/
def fresh_stale : Nat → command_t :=
  fun _ => command_t.zeroed.set_next (some (command_t.zeroed.set_name ['x']))

/-- The names `process_command` handles itself. -/
def builtin_names : List CStr :=
  ["exit".toList, "cd".toList, "hdiff".toList, "mkdir".toList, "rmdir".toList,
    "countlines".toList, "scoutword".toList, "psvis".toList]

/-- A chain with the three redirection slots of every stage cleared. -/
def clear_redirects : command_t → command_t
  | .mk m b a n g _ none => .mk m b a n g ⟨none, none, none⟩ none
  | .mk m b a n g _ (some x) => .mk m b a n g ⟨none, none, none⟩ (some (clear_redirects x))

/-- System calls that all succeed. -/
def sys_all_ok : sys_t :=
  { fork_ok := fun _ => true, chdir_ok := fun _ => true, mkdir_ok := fun _ => true,
    rmdir_ok := fun _ => true, fopen_ok := fun _ => true, atoi := fun _ => 1,
    pipe_ok := fun _ => true, child_fork_ok := fun _ => true, garbage := fun _ => (0, 0) }

/-- The descriptor table of a shell started on a terminal: descriptors 0, 1 and 2. -/
def fds_terminal : fd_table :=
  [(0, endpoint.inherited 0), (1, endpoint.inherited 1), (2, endpoint.inherited 2)]

/-- The line `cmd >f`. -/
def line_cmd_gt_f : List Char := ['c', 'm', 'd', SPACE, GT, 'f']

/-- The line `nosuchcmd`. -/
def line_nosuchcmd : List Char := ['n', 'o', 's', 'u', 'c', 'h', 'c', 'm', 'd']

/-- The processes spawned by the first `fork` of an outcome. -/
def spawned (r : result_t) : List proc_t :=
  match r.actions.head? with
  | some (action.fork _ ps _) => ps
  | _ => []

/-- Whether a descriptor refers to a file opened by path. -/
def is_opened : endpoint → Bool
  | endpoint.opened _ _ => true
  | _ => false

/-- Whether a descriptor refers to an end of a pipe. -/
def is_pipe_end : endpoint → Bool
  | endpoint.pipe_read _ => true
  | endpoint.pipe_write _ => true
  | _ => false

/-- Every descriptor of the table refers to something a descriptor of `fds0`
refers to, or to an end of a pipe. -/
def from_shell_or_pipe (fds0 t : fd_table) : Prop :=
  ∀ x ∈ t, (∃ y ∈ fds0, y.2 = x.2) ∨ is_pipe_end x.2 = true

/-- The line `mkdir x?`. -/
def line_mkdir_x_qmark : List Char := ['m', 'k', 'd', 'i', 'r', SPACE, 'x', QMARK]

/-- The line `sleep 5`. -/
def line_sleep_5 : List Char := ['s', 'l', 'e', 'e', 'p', SPACE, '5']

/-- The line `echo` followed by one argument of 1100 bytes `a`. -/
def line_long_arg : List Char := ['e', 'c', 'h', 'o', SPACE] ++ List.replicate 1100 'a'

theorem is_delim_NUL : is_delim NUL = false := by decide

theorem in_splitters_eq (c : Char) (h : c ≠ NUL) : in_splitters c = is_delim c := by
  simp [in_splitters, is_delim, h]

theorem in_splitters_NUL : in_splitters NUL = true := by decide

theorem is_delim_ne_NUL {c : Char} (h : is_delim c = true) : c ≠ NUL := by
  intro hc; subst hc; simp [is_delim_NUL] at h

theorem takeWhile_append_all (p : Char → Bool) (s r : List Char) (hs : ∀ c ∈ s, p c = true) :
    (s ++ r).takeWhile p = s ++ r.takeWhile p ∧ (s ++ r).dropWhile p = r.dropWhile p := by
  induction s with
  | nil => simp
  | cons a s ih =>
    have ha : p a = true := hs a (List.mem_cons_self _ _)
    have ih2 := ih (fun c hc => hs c (List.mem_cons_of_mem _ hc))
    simp [List.takeWhile, List.dropWhile, ha, ih2.1, ih2.2]

theorem Term_cases {r : List Char} (h : Term r) : r = [] ∨ ∃ b, r = NUL :: b := by
  cases r with
  | nil => exact Or.inl rfl
  | cons a b => right; refine ⟨b, ?_⟩; simp [Term] at h; rw [h]

theorem Term_takeWhile {r : List Char} (h : Term r) : r.takeWhile (fun c => c != NUL) = [] := by
  rcases Term_cases h with rfl | ⟨b, rfl⟩ <;> simp [List.takeWhile]

theorem NF_append {s t : List Char} : NF (s ++ t) ↔ NF s ∧ NF t := by
  simp only [NF, List.mem_append]
  constructor
  · intro h; exact ⟨fun c hc => h c (Or.inl hc), fun c hc => h c (Or.inr hc)⟩
  · rintro ⟨h1, h2⟩ c (hc | hc)
    · exact h1 c hc
    · exact h2 c hc

theorem NF_cons {a : Char} {s : List Char} : NF (a :: s) ↔ a ≠ NUL ∧ NF s := by
  simp [NF]

theorem cstr_append (s r : List Char) (hs : NF s) (hr : Term r) : cstr (s ++ r) = s := by
  have h := (takeWhile_append_all (fun c => c != NUL) s r (by
    intro c hc; simpa using hs c hc)).1
  simp [cstr, h, Term_takeWhile hr]

theorem strlen_append (s r : List Char) (hs : NF s) (hr : Term r) : strlen (s ++ r) = s.length := by
  have h := cstr_append s r hs hr
  simp only [cstr] at h
  simp [strlen, h]

theorem strlen_NF (s : List Char) (hs : NF s) : strlen s = s.length := by
  have := strlen_append s [] hs (by simp [Term])
  simpa using this

theorem cstr_NF (s : List Char) (hs : NF s) : cstr s = s := by
  have := cstr_append s [] hs (by simp [Term])
  simpa using this

theorem cstr_is_NF (buf : List Char) : NF (cstr buf) := by
  intro c hc
  have := List.mem_takeWhile_imp hc
  simpa using this

/-- Every memory content splits into its C string and what starts at the terminator. -/
theorem mem_split (buf : List Char) :
    ∃ r, buf = cstr buf ++ r ∧ Term r := by
  refine ⟨buf.dropWhile (fun c => c != NUL), ?_, ?_⟩
  · simp [cstr]
  · generalize hb : buf.dropWhile (fun c => c != NUL) = r
    cases r with
    | nil => simp [Term]
    | cons a b =>
      have := List.head_dropWhile_not (fun c => c != NUL) buf (by rw [hb]; simp)
      simp [hb] at this
      simp [Term, this]

theorem Tok_NF {t : List Char} (h : Tok t) : NF t := fun c hc => (h.2 c hc).2

theorem strtok_none_of (w r : List Char) (hw : AllDelim w) (hr : Term r) :
    strtok (w ++ r) = (none, r) := by
  have h := (takeWhile_append_all is_delim w r hw).2
  rcases Term_cases hr with rfl | ⟨b, rfl⟩
  · simp only [List.append_nil, List.dropWhile_nil] at h ⊢
    simp [strtok, h]
  · have : List.dropWhile is_delim (NUL :: b) = NUL :: b := by
      simp [List.dropWhile, is_delim_NUL]
    simp [strtok, h, this]

theorem Tok_cons {t : List Char} (h : Tok t) : ∃ c t', t = c :: t' ∧ is_delim c = false ∧ c ≠ NUL := by
  obtain ⟨hne, hall⟩ := h
  cases t with
  | nil => exact absurd rfl hne
  | cons c t' => exact ⟨c, t', rfl, hall c (List.mem_cons_self _ _)⟩

theorem strtok_tok_delim (w t m : List Char) (d : Char) (hw : AllDelim w) (ht : Tok t)
    (hd : is_delim d = true) :
    strtok (w ++ (t ++ d :: m)) = (some (t, m), m) := by
  have h := (takeWhile_append_all is_delim w (t ++ d :: m) hw).2
  obtain ⟨c, t', rfl, hc1, hc2⟩ := Tok_cons ht
  have h2 : List.dropWhile is_delim (c :: t' ++ d :: m) = c :: t' ++ d :: m := by
    simp [List.dropWhile, hc1]
  have h3 := takeWhile_append_all (fun x => !is_delim x && x != NUL) (c :: t') (d :: m) (by
    intro x hx; have := ht.2 x hx; simp [this.1, this.2])
  have hdn : d ≠ NUL := is_delim_ne_NUL hd
  have h4 : List.takeWhile (fun x => !is_delim x && x != NUL) (d :: m) = [] := by
    simp [List.takeWhile, hd]
  have h5 : List.dropWhile (fun x => !is_delim x && x != NUL) (d :: m) = d :: m := by
    simp [List.dropWhile, hd]
  rw [h4, h5] at h3
  simp only [List.append_nil] at h3
  unfold strtok
  rw [h, h2]
  simp only [List.cons_append] at h3 ⊢
  simp only [beq_iff_eq, hc2, if_false]
  rw [h3.1, h3.2]
  simp [hdn]

theorem strtok_tok_end (w t r : List Char) (hw : AllDelim w) (ht : Tok t) (hr : Term r) :
    strtok (w ++ (t ++ r)) = (some (t, r.tail), r) := by
  have h := (takeWhile_append_all is_delim w (t ++ r) hw).2
  obtain ⟨c, t', rfl, hc1, hc2⟩ := Tok_cons ht
  have h2 : List.dropWhile is_delim (c :: t' ++ r) = c :: t' ++ r := by
    simp [List.dropWhile, hc1]
  have h3 := takeWhile_append_all (fun x => !is_delim x && x != NUL) (c :: t') r (by
    intro x hx; have := ht.2 x hx; simp [this.1, this.2])
  unfold strtok
  rw [h, h2]
  simp only [List.cons_append] at h3 ⊢
  simp only [beq_iff_eq, hc2, if_false]
  rcases Term_cases hr with rfl | ⟨b, rfl⟩
  · simp only [List.takeWhile_nil, List.dropWhile_nil, List.append_nil] at h3 ⊢
    rw [h3.2, h3.1]
    simp
  · have h4 : List.takeWhile (fun x => !is_delim x && x != NUL) (NUL :: b) = [] := by
      simp [List.takeWhile]
    have h5 : List.dropWhile (fun x => !is_delim x && x != NUL) (NUL :: b) = NUL :: b := by
      simp [List.dropWhile]
    rw [h4, h5] at h3
    simp only [List.append_nil] at h3
    rw [h3.1, h3.2]
    simp

/-! ## Tokens -/

theorem tokens_nil : tokens [] = [] := by
  simp [tokens, List.splitOnP_nil]

theorem tokens_delim_cons (d : Char) (s : List Char) (hd : is_delim d = true) :
    tokens (d :: s) = tokens s := by
  simp [tokens, List.splitOnP_cons, hd]

theorem tokens_alldelim_append (w s : List Char) (hw : AllDelim w) :
    tokens (w ++ s) = tokens s := by
  induction w with
  | nil => rfl
  | cons a w ih =>
    rw [List.cons_append, tokens_delim_cons _ _ (hw a (List.mem_cons_self _ _))]
    exact ih (fun c hc => hw c (List.mem_cons_of_mem _ hc))

theorem tokens_alldelim (w : List Char) (hw : AllDelim w) : tokens w = [] := by
  have := tokens_alldelim_append w [] hw
  simpa [tokens_nil] using this

theorem tokens_tok_delim (t s : List Char) (d : Char) (ht : Tok t) (hd : is_delim d = true) :
    tokens (t ++ d :: s) = t :: tokens s := by
  have h := List.splitOnP_first is_delim t (fun x hx => by simp [(ht.2 x hx).1]) d hd s
  have hne : t.isEmpty = false := by
    obtain ⟨c, t', rfl, _, _⟩ := Tok_cons ht; rfl
  simp only [tokens, h, List.filter_cons, hne]
  simp

theorem tokens_tok (t : List Char) (ht : Tok t) : tokens t = [t] := by
  have h := List.splitOnP_eq_single is_delim t (fun x hx => by simp [(ht.2 x hx).1])
  have hne : t.isEmpty = false := by
    obtain ⟨c, t', rfl, _, _⟩ := Tok_cons ht; rfl
  simp only [tokens, h, List.filter_cons, hne]
  simp

/-- How memory looks from a position of `strtok`: blanks, then either a
terminator, or a token followed by a terminator or by a delimiter. -/
theorem mem_decomp (s : List Char) :
    ∃ w x, s = w ++ x ∧ AllDelim w ∧
      (Term x ∨ ∃ t e, x = t ++ e ∧ Tok t ∧ (Term e ∨ ∃ d m, e = d :: m ∧ is_delim d = true)) := by
  refine ⟨s.takeWhile is_delim, s.dropWhile is_delim, by simp, ?_, ?_⟩
  · intro c hc; exact List.mem_takeWhile_imp hc
  · generalize hx : s.dropWhile is_delim = x
    cases x with
    | nil => left; simp [Term]
    | cons c x' =>
      have hc : is_delim c = false := by
        have := List.head_dropWhile_not is_delim s (by rw [hx]; simp)
        simpa [hx] using this
      by_cases hn : c = NUL
      · left; simp [Term, hn]
      · right
        let p : Char → Bool := fun x => !is_delim x && x != NUL
        have hpc : p c = true := by simp [p, hc, hn]
        refine ⟨(c :: x').takeWhile p, (c :: x').dropWhile p, by simp, ⟨?_, ?_⟩, ?_⟩
        · simp [List.takeWhile, hpc]
        · intro y hy
          have := List.mem_takeWhile_imp hy
          simpa [p] using this
        · generalize he : (c :: x').dropWhile p = e
          cases e with
          | nil => left; simp [Term]
          | cons d m =>
            have hd : p d = false := by
              have := List.head_dropWhile_not p (c :: x') (by rw [he]; simp)
              simpa [he] using this
            by_cases hdn : d = NUL
            · left; simp [Term, hdn]
            · right; refine ⟨d, m, rfl, ?_⟩
              simpa [p, hdn] using hd

theorem scan_tokens_aux (n : Nat) : ∀ s : List Char, s.length ≤ n → NF s → Scan s (tokens s) := by
  induction n with
  | zero =>
    intro s hs _
    have : s = [] := List.length_eq_zero.mp (Nat.le_zero.mp hs)
    subst this
    rw [tokens_nil]; exact Scan.done [] (by simp [AllDelim])
  | succ n ih =>
    intro s hs hnf
    obtain ⟨w, x, rfl, hw, hx⟩ := mem_decomp s
    rcases hx with hx | ⟨t, e, rfl, ht, he⟩
    · have hx2 : x = [] := by
        rcases Term_cases hx with h | ⟨b, h⟩
        · exact h
        · subst h; exact absurd rfl ((NF_append.mp hnf).2 NUL (List.mem_cons_self _ _))
      subst hx2
      rw [List.append_nil, tokens_alldelim w hw]
      exact Scan.done w hw
    · rcases he with he | ⟨d, m, rfl, hd⟩
      · have he2 : e = [] := by
          rcases Term_cases he with h | ⟨b, h⟩
          · exact h
          · subst h
            exact absurd rfl ((NF_append.mp (NF_append.mp hnf).2).2 NUL (List.mem_cons_self _ _))
        subst he2
        rw [List.append_nil, tokens_alldelim_append w t hw, tokens_tok t ht]
        exact Scan.last w t hw ht
      · rw [tokens_alldelim_append w _ hw, tokens_tok_delim t m d ht hd]
        refine Scan.cons w t d m _ hw ht hd (ih m ?_ ?_)
        · obtain ⟨c, t', rfl, _, _⟩ := Tok_cons ht
          simp only [List.length_append, List.length_cons] at hs
          omega
        · exact (NF_cons.mp (NF_append.mp (NF_append.mp hnf).2).2).2

theorem scan_tokens (s : List Char) (hs : NF s) : Scan s (tokens s) :=
  scan_tokens_aux s.length s (Nat.le_refl _) hs

/-! ## One iteration of the token loop -/

theorem trim_left_tok (t : List Char) (ht : Tok t) : trim_left t.length t = (t, t.length) := by
  obtain ⟨c, t', rfl, hc1, hc2⟩ := Tok_cons ht
  simp [trim_left, in_splitters_eq c hc2, hc1]

theorem trim_right_tok (t : List Char) (ht : Tok t) : trim_right t.length t = (t, t.length) := by
  obtain ⟨c, t', rfl, _, _⟩ := Tok_cons ht
  have hlt : t'.length < (c :: t').length := by simp
  have hmem : (c :: t')[t'.length] ∈ (c :: t') := List.getElem_mem hlt
  have h1 := ht.2 _ hmem
  have h2 : (c :: t').getD t'.length NUL = (c :: t')[t'.length] := by
    simp [List.getD_eq_getElem?_getD, List.getElem?_eq_getElem hlt]
  have h3 : in_splitters ((c :: t').getD t'.length NUL) = false := by
    rw [h2, in_splitters_eq _ h1.2]; exact h1.1
  simp only [List.length_cons, trim_right, h3]
  simp

theorem loop_none (n : Nat) (fresh : Nat → command_t) (save save' : List Char) (cmd : command_t)
    (h : strtok save = (none, save')) :
    parse_loop (n + 1) fresh save cmd = some (ending.returned, cmd, save') := by
  simp [parse_loop, h]

/-- A token that does not fit `temp_buf` ends the run. -/
theorem loop_overflow (n : Nat) (fresh : Nat → command_t) (save save' after t : List Char)
    (cmd : command_t) (h : strtok save = (some (t, after), save')) (ht : Tok t)
    (hlen : 1024 ≤ t.length) :
    parse_loop (n + 1) fresh save cmd = some (ending.overflow, cmd, save') := by
  have hl : strlen t = t.length := strlen_NF t (Tok_NF ht)
  have hc : 1024 < t.length + 1 := by omega
  simp only [parse_loop, h, hl, if_pos hc]

theorem loop_tok (n : Nat) (fresh : Nat → command_t) (save save' after t : List Char)
    (cmd : command_t) (h : strtok save = (some (t, after), save')) (ht : Tok t)
    (hp : t ≠ [PIPE]) (hlen : t.length < 1024) :
    parse_loop (n + 1) fresh save cmd = parse_loop n fresh save' (store_token t cmd) := by
  have hl : strlen t = t.length := strlen_NF t (Tok_NF ht)
  have hne : t.length ≠ 0 := by
    obtain ⟨c, t', rfl, _, _⟩ := Tok_cons ht; simp
  have hc : ¬ (1024 < t.length + 1) := by omega
  simp only [parse_loop, h, hl, if_neg hc]
  simp [cstr_NF t (Tok_NF ht), hl, hne, trim_left_tok t ht, trim_right_tok t ht, hp]

theorem loop_pipe (n : Nat) (fresh : Nat → command_t) (save save' after : List Char)
    (cmd : command_t) (h : strtok save = (some ([PIPE], after), save')) :
    parse_loop (n + 1) fresh save cmd =
      match parse_loop n (fun k => fresh (k + 1))
          (parse_prologue (after.dropWhile is_delim) (fresh 0)).2
          (parse_prologue (after.dropWhile is_delim) (fresh 0)).1 with
      | none => none
      | some (ending.overflow, _, s) => some (ending.overflow, cmd, s)
      | some (ending.returned, c, s) =>
        parse_loop n fresh s (cmd.set_next (some (parse_epilogue c))) := by
  have ht : Tok [PIPE] := by
    refine ⟨by simp, ?_⟩
    intro c hc; simp at hc; subst hc; decide
  have hl : strlen [PIPE] = 1 := by decide
  have hd : is_delim SPACE = true := by decide
  have h1 : trim_left 1 [PIPE] = ([PIPE], 1) := by decide
  have h2 : trim_right 1 [PIPE] = ([PIPE], 1) := by decide
  have hc : cstr [PIPE] = [PIPE] := by decide
  simp [parse_loop, h, hc, hl, h1, h2, List.dropWhile, hd]

/-! ## The loop terminates: enough iterations always give a result -/

theorem Tok_length_pos {t : List Char} (ht : Tok t) : 0 < t.length := by
  obtain ⟨c, t', rfl, _, _⟩ := Tok_cons ht; simp

theorem Term_tail_length (r : List Char) : r.tail.length ≤ r.length := by
  cases r <;> simp

/-- What one `strtok` call returns, for any memory content. -/
theorem strtok_cases (s : List Char) :
    (∃ s', strtok s = (none, s') ∧ Term s' ∧ s'.length ≤ s.length) ∨
    (∃ t after s', strtok s = (some (t, after), s') ∧ Tok t ∧ after.length < s.length ∧
      s'.length < s.length) := by
  obtain ⟨w, x, rfl, hw, hx⟩ := mem_decomp s
  rcases hx with hx | ⟨t, e, rfl, ht, he⟩
  · left; exact ⟨x, strtok_none_of w x hw hx, hx, by simp⟩
  · right
    have hpos := Tok_length_pos ht
    rcases he with he | ⟨d, m, rfl, hd⟩
    · refine ⟨t, e.tail, e, strtok_tok_end w t e hw ht he, ht, ?_, ?_⟩
      · have := Term_tail_length e
        simp only [List.length_append]; omega
      · simp only [List.length_append]; omega
    · refine ⟨t, m, m, strtok_tok_delim w t m d hw ht hd, ht, ?_, ?_⟩ <;>
      · simp only [List.length_append, List.length_cons]; omega

theorem strtok_Term (r : List Char) (hr : Term r) : strtok r = (none, r) := by
  have := strtok_none_of [] r (by simp [AllDelim]) hr
  simpa using this

theorem trim_left_length (n : Nat) : ∀ buf : List Char, (trim_left n buf).1.length ≤ buf.length := by
  induction n with
  | zero => intro buf; simp [trim_left]
  | succ n ih =>
    intro buf
    simp only [trim_left]
    split
    · exact Nat.le_trans (ih buf.tail) (Term_tail_length buf)
    · simp

theorem trim_right_length (n : Nat) : ∀ buf : List Char, (trim_right n buf).1.length = buf.length := by
  induction n with
  | zero => intro buf; simp [trim_right]
  | succ n ih =>
    intro buf
    simp only [trim_right]
    split
    · rw [ih]; simp
    · simp

theorem parse_prologue_eq (buf : List Char) (command : command_t) :
    parse_prologue buf command =
      (match strtok (trimmed buf).1 with
      | (none, save) => (((code_flags command (trimmed buf)).set_name []).set_args [], save)
      | (some (pch, _), save) =>
        (((code_flags command (trimmed buf)).set_name (cstr pch)).set_args [], save)) := by
  rfl

theorem trimmed_length (buf : List Char) : (trimmed buf).1.length ≤ buf.length := by
  unfold trimmed
  rw [trim_right_length]
  exact trim_left_length _ _

theorem parse_prologue_length (buf : List Char) (command : command_t) :
    (parse_prologue buf command).2.length ≤ buf.length := by
  rw [parse_prologue_eq]
  have h1 := trimmed_length buf
  rcases strtok_cases (trimmed buf).1 with ⟨s', h, _, hl⟩ | ⟨t, after, s', h, _, _, hl⟩
  · rw [h]; simp only; omega
  · rw [h]; simp only; omega

/-- Enough iterations: the run of the loop ends, by its return or by an
overflow, and a loop that returns leaves `strtok` exhausted at a position no
further than where it started. -/
theorem parse_loop_total (n : Nat) : ∀ (fresh : Nat → command_t) (save : List Char)
    (cmd : command_t), save.length < n →
    ∃ e c s, parse_loop n fresh save cmd = some (e, c, s) ∧ s.length ≤ save.length ∧
      (e = ending.returned → Term s) := by
  induction n with
  | zero => intro _ save _ h; omega
  | succ n ih =>
    intro fresh save cmd hlen
    rcases strtok_cases save with ⟨s', h, hT, hl⟩ | ⟨t, after, s', h, ht, hla, hls⟩
    · exact ⟨ending.returned, cmd, s', loop_none n fresh save s' cmd h, hl, fun _ => hT⟩
    · by_cases hp : t = [PIPE]
      · subst hp
        rw [loop_pipe n fresh save s' after cmd h]
        have h1 := parse_prologue_length (after.dropWhile is_delim) (fresh 0)
        have h2 : (after.dropWhile is_delim).length ≤ after.length :=
          (List.dropWhile_sublist _).length_le
        obtain ⟨e, c, s, hc, hs, _⟩ := ih (fun k => fresh (k + 1))
          (parse_prologue (after.dropWhile is_delim) (fresh 0)).2
          (parse_prologue (after.dropWhile is_delim) (fresh 0)).1 (by omega)
        rw [hc]
        cases e with
        | overflow => exact ⟨ending.overflow, cmd, s, rfl, by omega, fun h => by cases h⟩
        | returned =>
          obtain ⟨e2, c2, s2, hc2, hs2, hT2⟩ := ih fresh s (cmd.set_next (some (parse_epilogue c)))
            (by omega)
          exact ⟨e2, c2, s2, hc2, by omega, hT2⟩
      · by_cases hfit : t.length < 1024
        · rw [loop_tok n fresh save s' after t cmd h ht hp hfit]
          obtain ⟨e, c, s, hc, hs, hT⟩ := ih fresh s' (store_token t cmd) (by omega)
          exact ⟨e, c, s, hc, by omega, hT⟩
        · rw [loop_overflow n fresh save s' after t cmd h ht (by omega)]
          exact ⟨ending.overflow, cmd, s', rfl, by omega, fun h => by cases h⟩

/-- More iterations than needed change nothing. -/
theorem parse_loop_succ (n : Nat) : ∀ (fresh : Nat → command_t) (save : List Char)
    (cmd : command_t), save.length < n →
    parse_loop (n + 1) fresh save cmd = parse_loop n fresh save cmd := by
  induction n with
  | zero => intro _ save _ h; omega
  | succ n ih =>
    intro fresh save cmd hlen
    rcases strtok_cases save with ⟨s', h, _, hl⟩ | ⟨t, after, s', h, ht, hla, hls⟩
    · rw [loop_none _ fresh save s' cmd h, loop_none _ fresh save s' cmd h]
    · by_cases hp : t = [PIPE]
      · subst hp
        rw [loop_pipe _ fresh save s' after cmd h, loop_pipe _ fresh save s' after cmd h]
        have h1 := parse_prologue_length (after.dropWhile is_delim) (fresh 0)
        have h2 : (after.dropWhile is_delim).length ≤ after.length :=
          (List.dropWhile_sublist _).length_le
        have hlt : (parse_prologue (after.dropWhile is_delim) (fresh 0)).2.length < n := by omega
        rw [ih _ _ _ hlt]
        obtain ⟨e, c, s, hc, hs, _⟩ := parse_loop_total n (fun k => fresh (k + 1))
          (parse_prologue (after.dropWhile is_delim) (fresh 0)).2
          (parse_prologue (after.dropWhile is_delim) (fresh 0)).1 hlt
        rw [hc]
        cases e with
        | overflow => rfl
        | returned => exact ih _ _ _ (by omega)
      · by_cases hfit : t.length < 1024
        · rw [loop_tok _ fresh save s' after t cmd h ht hp hfit,
            loop_tok _ fresh save s' after t cmd h ht hp hfit]
          exact ih _ _ _ (by omega)
        · rw [loop_overflow _ fresh save s' after t cmd h ht (by omega),
            loop_overflow _ fresh save s' after t cmd h ht (by omega)]

theorem parse_loop_fuel (n m : Nat) (fresh : Nat → command_t) (save : List Char)
    (cmd : command_t) (hn : save.length < n) (hm : save.length < m) :
    parse_loop n fresh save cmd = parse_loop m fresh save cmd := by
  have key : ∀ k, parse_loop (save.length + 1 + k) fresh save cmd =
      parse_loop (save.length + 1) fresh save cmd := by
    intro k
    induction k with
    | zero => rfl
    | succ k ih =>
      have := parse_loop_succ (save.length + 1 + k) fresh save cmd (by omega)
      exact this.trans ih
  have e1 := key (n - (save.length + 1))
  have e2 := key (m - (save.length + 1))
  have a1 : save.length + 1 + (n - (save.length + 1)) = n := by omega
  have a2 : save.length + 1 + (m - (save.length + 1)) = m := by omega
  rw [a1] at e1; rw [a2] at e2
  rw [e1, e2]

/-! ## The trimming loops -/

theorem getD_at_length {α : Type} (x r : List α) (e d : α) : (x ++ e :: r).getD x.length d = e := by
  induction x with
  | nil => simp
  | cons a x ih => simpa using ih

theorem set_at_length {α : Type} (x r : List α) (e v : α) :
    (x ++ e :: r).set x.length v = x ++ v :: r := by
  induction x with
  | nil => simp
  | cons a x ih => simp

theorem AllDelim_NF {w : List Char} (h : AllDelim w) : NF w :=
  fun c hc => is_delim_ne_NUL (h c hc)

theorem AllDelim_append {a b : List Char} : AllDelim (a ++ b) ↔ AllDelim a ∧ AllDelim b := by
  simp only [AllDelim, List.mem_append]
  constructor
  · intro h; exact ⟨fun c hc => h c (Or.inl hc), fun c hc => h c (Or.inr hc)⟩
  · rintro ⟨h1, h2⟩ c (hc | hc)
    · exact h1 c hc
    · exact h2 c hc

theorem AllDelim_nil : AllDelim [] := by simp [AllDelim]

theorem AllDelim_cons {d : Char} {w : List Char} :
    AllDelim (d :: w) ↔ is_delim d = true ∧ AllDelim w := by
  simp [AllDelim]

theorem trim_left_alldelim (a x : List Char) (k : Nat) (ha : AllDelim a) :
    trim_left (a.length + k) (a ++ x) = trim_left k x := by
  induction a with
  | nil => simp
  | cons c a ih =>
    have hc := (AllDelim_cons.mp ha).1
    have hs : in_splitters c = true := by
      rw [in_splitters_eq c (is_delim_ne_NUL hc)]; exact hc
    have e : (c :: a).length + k = (a.length + k) + 1 := by simp; omega
    rw [e]
    simp only [trim_left, List.cons_append, List.headD_cons, hs, if_true, List.tail_cons]
    exact ih (AllDelim_cons.mp ha).2

theorem trim_left_stop (x : List Char) (c : Char) (k : Nat) (hc : is_delim c = false)
    (hn : c ≠ NUL) : trim_left (k + 1) (c :: x) = (c :: x, k + 1) := by
  simp [trim_left, in_splitters_eq c hn, hc]

theorem trim_right_alldelim (x b : List Char) (hb : AllDelim b) : ∀ r : List Char,
    trim_right (x.length + b.length) (x ++ (b ++ r)) =
      trim_right x.length (x ++ (List.replicate b.length NUL ++ r)) := by
  induction b using List.reverseRecOn with
  | nil => intro r; simp
  | append_singleton b e ih =>
    intro r
    have he : is_delim e = true := (AllDelim_append.mp hb).2 e (by simp)
    have hs : in_splitters e = true := by
      rw [in_splitters_eq e (is_delim_ne_NUL he)]; exact he
    have e1 : x.length + (b ++ [e]).length = (x ++ b).length + 1 := by simp; omega
    have e2 : x ++ (b ++ [e] ++ r) = (x ++ b) ++ e :: r := by simp
    rw [e1, e2]
    simp only [trim_right, getD_at_length, hs, if_true, set_at_length]
    have e3 : (x ++ b) ++ NUL :: r = x ++ (b ++ NUL :: r) := by simp
    have e4 : (x ++ b).length = x.length + b.length := by simp
    rw [e3, e4, ih (AllDelim_append.mp hb).1 (NUL :: r)]
    have e5 : List.replicate (b ++ [e]).length NUL ++ r = List.replicate b.length NUL ++ NUL :: r := by
      simp [List.replicate_succ', List.append_assoc]
    rw [e5]

theorem trim_right_stop (y r : List Char) (e : Char) (he : is_delim e = false) (hn : e ≠ NUL) :
    trim_right (y ++ [e]).length ((y ++ [e]) ++ r) = ((y ++ [e]) ++ r, (y ++ [e]).length) := by
  have e1 : (y ++ [e]).length = y.length + 1 := by simp
  have e2 : (y ++ [e]) ++ r = y ++ e :: r := by simp
  rw [e1, e2]
  have hs : in_splitters e = false := by rw [in_splitters_eq e hn]; exact he
  simp only [trim_right, getD_at_length, hs]
  rfl

/-- Trimming a blank line leaves the empty string. -/
theorem trimmed_blank (w r : List Char) (hw : AllDelim w) (hr : Term r) :
    trimmed (w ++ r) = (r, 0) := by
  have h1 : strlen (w ++ r) = w.length + 0 := by
    rw [strlen_append w r (AllDelim_NF hw) hr]; rfl
  unfold trimmed
  rw [h1, trim_left_alldelim w r 0 hw]
  simp [trim_left, trim_right]

theorem Core_ne_NUL_last {core y : List Char} {e : Char} (hc : NF core) (h : core = y ++ [e]) :
    e ≠ NUL := hc e (by rw [h]; simp)

/-- Trimming a line with a non-blank core: the leading blanks are skipped and
the trailing blanks are overwritten by terminators. -/
theorem trimmed_core (a core b r : List Char) (ha : AllDelim a) (hc : Core core)
    (hb : AllDelim b) (hr : Term r) :
    trimmed (a ++ (core ++ (b ++ r))) =
      (core ++ (List.replicate b.length NUL ++ r), core.length) := by
  obtain ⟨hnf, ⟨c, x, hcx, hcd⟩, ⟨y, e, hye, hed⟩⟩ := hc
  have hs : NF (a ++ (core ++ b)) :=
    NF_append.mpr ⟨AllDelim_NF ha, NF_append.mpr ⟨hnf, AllDelim_NF hb⟩⟩
  have h1 : strlen (a ++ (core ++ (b ++ r))) = a.length + (core.length + b.length) := by
    have := strlen_append (a ++ (core ++ b)) r hs hr
    simp only [List.append_assoc, List.length_append] at this
    exact this
  have hcn : c ≠ NUL := hnf c (by rw [hcx]; simp)
  have h2 : trim_left (core.length + b.length) (core ++ (b ++ r)) =
      (core ++ (b ++ r), core.length + b.length) := by
    have e1 : core.length + b.length = (x.length + b.length) + 1 := by rw [hcx]; simp; omega
    rw [e1, hcx]
    exact trim_left_stop _ c _ hcd hcn
  unfold trimmed
  rw [h1, trim_left_alldelim a _ _ ha, h2]
  simp only
  rw [trim_right_alldelim core b hb r]
  have hen : e ≠ NUL := Core_ne_NUL_last hnf hye
  have := trim_right_stop y (List.replicate b.length NUL ++ r) e hed hen
  rw [← hye] at this
  exact this

theorem Tok_last {t : List Char} (ht : Tok t) : ∃ y e, t = y ++ [e] ∧ is_delim e = false := by
  have hne := ht.1
  refine ⟨t.dropLast, t.getLast hne, (List.dropLast_append_getLast hne).symm, ?_⟩
  exact (ht.2 _ (List.getLast_mem hne)).1

/-- A line is blank, or it has a core between leading and trailing blanks. -/
theorem core_decomp {s : List Char} {ts : List CStr} (h : Scan s ts) :
    (AllDelim s ∧ ts = []) ∨
    ∃ a core b, s = a ++ (core ++ b) ∧ AllDelim a ∧ AllDelim b ∧ Core core ∧
      Scan core ts ∧ ts ≠ [] := by
  induction h with
  | done w hw => left; exact ⟨hw, rfl⟩
  | last w t hw ht =>
    right
    obtain ⟨c, x, hcx, hcd, _⟩ := Tok_cons ht
    refine ⟨w, t, [], by simp, hw, AllDelim_nil, ⟨Tok_NF ht, ⟨c, x, hcx, hcd⟩, Tok_last ht⟩, ?_, by simp⟩
    have := Scan.last [] t AllDelim_nil ht
    simpa using this
  | cons w t d s ts hw ht hd hs ih =>
    right
    obtain ⟨c, x, hcx, hcd, _⟩ := Tok_cons ht
    rcases ih with ⟨hall, hts⟩ | ⟨a, core, b, rfl, ha, hb, hcore, hsc, hne⟩
    · refine ⟨w, t, d :: s, rfl, hw, AllDelim_cons.mpr ⟨hd, hall⟩,
        ⟨Tok_NF ht, ⟨c, x, hcx, hcd⟩, Tok_last ht⟩, ?_, by simp⟩
      subst hts
      have := Scan.last [] t AllDelim_nil ht
      simpa using this
    · obtain ⟨hnf, _, ⟨y, e, hye, hed⟩⟩ := hcore
      refine ⟨w, t ++ d :: (a ++ core), b, by simp, hw, hb, ⟨?_, ⟨c, x ++ d :: (a ++ core), ?_, hcd⟩,
        ⟨t ++ d :: (a ++ y), e, ?_, hed⟩⟩, ?_, by simp⟩
      · exact NF_append.mpr ⟨Tok_NF ht, NF_cons.mpr ⟨is_delim_ne_NUL hd,
          NF_append.mpr ⟨AllDelim_NF ha, hnf⟩⟩⟩
      · rw [hcx]; simp
      · rw [hye]; simp
      · have hsc2 : Scan (a ++ core) ts := by
          cases hsc with
          | done w' hw' => exact absurd rfl hne
          | last w' t' hw' ht' =>
            have := Scan.last (a ++ w') t' (AllDelim_append.mpr ⟨ha, hw'⟩) ht'
            simpa using this
          | cons w' t' d' s' ts' hw' ht' hd' hs' =>
            have := Scan.cons (a ++ w') t' d' s' ts' (AllDelim_append.mpr ⟨ha, hw'⟩) ht' hd' hs'
            simpa using this
        have := Scan.cons [] t d (a ++ core) ts AllDelim_nil ht hd hsc2
        simpa using this

/-! ## Field access after a store -/

@[simp] theorem name_set_name (c : command_t) (v) : (c.set_name v).name = v := by
  cases c; rfl

@[simp] theorem background_set_name (c : command_t) (v) : (c.set_name v).background = c.background := by
  cases c; rfl

@[simp] theorem auto_complete_set_name (c : command_t) (v) : (c.set_name v).auto_complete = c.auto_complete := by
  cases c; rfl

@[simp] theorem arg_count_set_name (c : command_t) (v) : (c.set_name v).arg_count = c.arg_count := by
  cases c; rfl

@[simp] theorem args_set_name (c : command_t) (v) : (c.set_name v).args = c.args := by
  cases c; rfl

@[simp] theorem redirects_set_name (c : command_t) (v) : (c.set_name v).redirects = c.redirects := by
  cases c; rfl

@[simp] theorem next_set_name (c : command_t) (v) : (c.set_name v).next = c.next := by
  cases c; rfl

@[simp] theorem name_set_background (c : command_t) (v) : (c.set_background v).name = c.name := by
  cases c; rfl

@[simp] theorem background_set_background (c : command_t) (v) : (c.set_background v).background = v := by
  cases c; rfl

@[simp] theorem auto_complete_set_background (c : command_t) (v) : (c.set_background v).auto_complete = c.auto_complete := by
  cases c; rfl

@[simp] theorem arg_count_set_background (c : command_t) (v) : (c.set_background v).arg_count = c.arg_count := by
  cases c; rfl

@[simp] theorem args_set_background (c : command_t) (v) : (c.set_background v).args = c.args := by
  cases c; rfl

@[simp] theorem redirects_set_background (c : command_t) (v) : (c.set_background v).redirects = c.redirects := by
  cases c; rfl

@[simp] theorem next_set_background (c : command_t) (v) : (c.set_background v).next = c.next := by
  cases c; rfl

@[simp] theorem name_set_auto_complete (c : command_t) (v) : (c.set_auto_complete v).name = c.name := by
  cases c; rfl

@[simp] theorem background_set_auto_complete (c : command_t) (v) : (c.set_auto_complete v).background = c.background := by
  cases c; rfl

@[simp] theorem auto_complete_set_auto_complete (c : command_t) (v) : (c.set_auto_complete v).auto_complete = v := by
  cases c; rfl

@[simp] theorem arg_count_set_auto_complete (c : command_t) (v) : (c.set_auto_complete v).arg_count = c.arg_count := by
  cases c; rfl

@[simp] theorem args_set_auto_complete (c : command_t) (v) : (c.set_auto_complete v).args = c.args := by
  cases c; rfl

@[simp] theorem redirects_set_auto_complete (c : command_t) (v) : (c.set_auto_complete v).redirects = c.redirects := by
  cases c; rfl

@[simp] theorem next_set_auto_complete (c : command_t) (v) : (c.set_auto_complete v).next = c.next := by
  cases c; rfl

@[simp] theorem name_set_arg_count (c : command_t) (v) : (c.set_arg_count v).name = c.name := by
  cases c; rfl

@[simp] theorem background_set_arg_count (c : command_t) (v) : (c.set_arg_count v).background = c.background := by
  cases c; rfl

@[simp] theorem auto_complete_set_arg_count (c : command_t) (v) : (c.set_arg_count v).auto_complete = c.auto_complete := by
  cases c; rfl

@[simp] theorem arg_count_set_arg_count (c : command_t) (v) : (c.set_arg_count v).arg_count = v := by
  cases c; rfl

@[simp] theorem args_set_arg_count (c : command_t) (v) : (c.set_arg_count v).args = c.args := by
  cases c; rfl

@[simp] theorem redirects_set_arg_count (c : command_t) (v) : (c.set_arg_count v).redirects = c.redirects := by
  cases c; rfl

@[simp] theorem next_set_arg_count (c : command_t) (v) : (c.set_arg_count v).next = c.next := by
  cases c; rfl

@[simp] theorem name_set_args (c : command_t) (v) : (c.set_args v).name = c.name := by
  cases c; rfl

@[simp] theorem background_set_args (c : command_t) (v) : (c.set_args v).background = c.background := by
  cases c; rfl

@[simp] theorem auto_complete_set_args (c : command_t) (v) : (c.set_args v).auto_complete = c.auto_complete := by
  cases c; rfl

@[simp] theorem arg_count_set_args (c : command_t) (v) : (c.set_args v).arg_count = c.arg_count := by
  cases c; rfl

@[simp] theorem args_set_args (c : command_t) (v) : (c.set_args v).args = v := by
  cases c; rfl

@[simp] theorem redirects_set_args (c : command_t) (v) : (c.set_args v).redirects = c.redirects := by
  cases c; rfl

@[simp] theorem next_set_args (c : command_t) (v) : (c.set_args v).next = c.next := by
  cases c; rfl

@[simp] theorem name_set_next (c : command_t) (v) : (c.set_next v).name = c.name := by
  cases c; rfl

@[simp] theorem background_set_next (c : command_t) (v) : (c.set_next v).background = c.background := by
  cases c; rfl

@[simp] theorem auto_complete_set_next (c : command_t) (v) : (c.set_next v).auto_complete = c.auto_complete := by
  cases c; rfl

@[simp] theorem arg_count_set_next (c : command_t) (v) : (c.set_next v).arg_count = c.arg_count := by
  cases c; rfl

@[simp] theorem args_set_next (c : command_t) (v) : (c.set_next v).args = c.args := by
  cases c; rfl

@[simp] theorem redirects_set_next (c : command_t) (v) : (c.set_next v).redirects = c.redirects := by
  cases c; rfl

@[simp] theorem next_set_next (c : command_t) (v) : (c.set_next v).next = v := by
  cases c; rfl

@[simp] theorem name_set_redirect (c : command_t) (i v) : (c.set_redirect i v).name = c.name := by
  cases c; rfl

@[simp] theorem background_set_redirect (c : command_t) (i v) : (c.set_redirect i v).background = c.background := by
  cases c; rfl

@[simp] theorem auto_complete_set_redirect (c : command_t) (i v) : (c.set_redirect i v).auto_complete = c.auto_complete := by
  cases c; rfl

@[simp] theorem arg_count_set_redirect (c : command_t) (i v) : (c.set_redirect i v).arg_count = c.arg_count := by
  cases c; rfl

@[simp] theorem args_set_redirect (c : command_t) (i v) : (c.set_redirect i v).args = c.args := by
  cases c; rfl

@[simp] theorem redirects_set_redirect (c : command_t) (i v) : (c.set_redirect i v).redirects = c.redirects.set i v := by
  cases c; rfl

@[simp] theorem next_set_redirect (c : command_t) (i v) : (c.set_redirect i v).next = c.next := by
  cases c; rfl

/-! ## What a token does to the command -/

theorem headD_eq_iff (t : List Char) (q : Char) (hq : q ≠ NUL) :
    (t.headD NUL = q) ↔ t.head? = some q := by
  cases t with
  | nil => simp; exact fun h => hq h.symm
  | cons a t => simp

theorem getD_one_eq_iff (t : List Char) (q : Char) (hq : q ≠ NUL) :
    (t.getD 1 NUL = q) ↔ t.tail.head? = some q := by
  cases t with
  | nil => simp; exact fun h => hq h.symm
  | cons a t =>
    cases t with
    | nil => simp; exact fun h => hq h.symm
    | cons b t => simp

theorem getD_last_eq_iff (t : List Char) (q : Char) (hq : q ≠ NUL) :
    (t.getD (t.length - 1) NUL = q) ↔ t.getLast? = some q := by
  rw [List.getD_eq_getElem?_getD, List.getLast?_eq_getElem?]
  cases h : t[t.length - 1]? with
  | none => simp; exact fun h => hq h.symm
  | some a => simp

theorem take_tail_eq (t : List Char) : (t.take (t.length - 1)).tail = t.tail.dropLast := by
  cases t with
  | nil => rfl
  | cons a t =>
    cases t with
    | nil => rfl
    | cons b t => simp [List.dropLast_eq_take]

theorem quote_rule_eq (t : CStr) :
    (if (decide (t.length > 2) &&
          ((t.headD NUL == DQUOTE && t.getD (t.length - 1) NUL == DQUOTE) ||
           (t.headD NUL == SQUOTE && t.getD (t.length - 1) NUL == SQUOTE))) = true
      then (t.take (t.length - 1)).tail else t) = strip_quotes t := by
  have hDQ : DQUOTE ≠ NUL := by decide
  have hSQ : SQUOTE ≠ NUL := by decide
  have e1 : (t.headD NUL = DQUOTE) ↔ t.head? = some DQUOTE := headD_eq_iff t _ hDQ
  have e2 : (t.headD NUL = SQUOTE) ↔ t.head? = some SQUOTE := headD_eq_iff t _ hSQ
  have e3 : (t.getD (t.length - 1) NUL = DQUOTE) ↔ t.getLast? = some DQUOTE :=
    getD_last_eq_iff t _ hDQ
  have e4 : (t.getD (t.length - 1) NUL = SQUOTE) ↔ t.getLast? = some SQUOTE :=
    getD_last_eq_iff t _ hSQ
  simp only [strip_quotes, Bool.and_eq_true, decide_eq_true_eq, Bool.or_eq_true, beq_iff_eq,
    gt_iff_lt, e1, e2, e3, e4, take_tail_eq]

theorem store_token_eq (t : CStr) (cmd : command_t) :
    store_token t cmd =
      if t = [AMP] then cmd
      else match redirect_of t with
        | some (i, p) => cmd.set_redirect i (some p)
        | none => cmd.set_args (cmd.args ++ [some (strip_quotes t)]) := by
  have hLT : LT ≠ NUL := by decide
  have hGT : GT ≠ NUL := by decide
  have hLG : LT ≠ GT := by decide
  by_cases hamp : t = [AMP]
  · simp [store_token, hamp]
  · by_cases h1 : t.head? = some LT
    · have h1' : t.headD NUL = LT := (headD_eq_iff t LT hLT).mpr h1
      have bLT : (t.headD NUL == LT) = true := by rw [h1']; exact beq_self_eq_true _
      have bGT : (t.headD NUL == GT) = false := by rw [h1']; decide
      simp only [store_token, hamp, redirect_of, h1, bLT, bGT, if_true, if_false]
      rfl
    · have h1' : ¬ (t.headD NUL = LT) := fun h => h1 ((headD_eq_iff t LT hLT).mp h)
      have bLT : (t.headD NUL == LT) = false := beq_eq_false_iff_ne.mpr h1'
      by_cases h2 : t.head? = some GT
      · have h2' : t.headD NUL = GT := (headD_eq_iff t GT hGT).mpr h2
        have bGT : (t.headD NUL == GT) = true := by rw [h2']; exact beq_self_eq_true _
        by_cases h3 : t.tail.head? = some GT
        · have h3' : t.getD 1 NUL = GT := (getD_one_eq_iff t GT hGT).mpr h3
          have hl : 1 < t.length := by
            cases t with
            | nil => simp at h2
            | cons a t => cases t with
              | nil => simp at h3
              | cons b t => simp
          have b2 : (decide (t.length > 1) && t.getD 1 NUL == GT) = true := by
            rw [h3', beq_self_eq_true, Bool.and_true]; exact decide_eq_true hl
          simp only [store_token, hamp, redirect_of, h1, h2, h3, bLT, bGT, b2, if_true, if_false]
          rfl
        · have h3' : ¬ (t.getD 1 NUL = GT) := fun h => h3 ((getD_one_eq_iff t GT hGT).mp h)
          have b2 : (decide (t.length > 1) && t.getD 1 NUL == GT) = false := by
            rw [beq_eq_false_iff_ne.mpr h3', Bool.and_false]
          simp only [store_token, hamp, redirect_of, h1, h2, h3, bLT, bGT, b2, if_true, if_false]
          rfl
      · have h2' : ¬ (t.headD NUL = GT) := fun h => h2 ((headD_eq_iff t GT hGT).mp h)
        have bGT : (t.headD NUL == GT) = false := beq_eq_false_iff_ne.mpr h2'
        have hq := quote_rule_eq t
        simp only [store_token, hamp, redirect_of, h1, h2, bLT, bGT, if_true, if_false]
        rw [← hq]
        rfl

/-! ## The tokens of a stage, folded -/

theorem run_tokens_cons (cmd : command_t) (t : CStr) (ts : List CStr) :
    run_tokens cmd (t :: ts) = run_tokens (store_token t cmd) ts := rfl

theorem store_token_fields (t : CStr) (cmd : command_t) :
    (store_token t cmd).name = cmd.name ∧ (store_token t cmd).background = cmd.background ∧
    (store_token t cmd).auto_complete = cmd.auto_complete ∧
    (store_token t cmd).next = cmd.next ∧
    (store_token t cmd).redirects = apply_redirect cmd.redirects t ∧
    (store_token t cmd).args =
      cmd.args ++ (if is_normal t then [some (strip_quotes t)] else []) := by
  rw [store_token_eq]
  by_cases hamp : t = [AMP]
  · subst hamp
    simp [apply_redirect, is_normal]
  · cases hr : redirect_of t with
    | none => simp [hamp, hr, apply_redirect, is_normal]
    | some ip =>
      obtain ⟨i, p⟩ := ip
      simp [hamp, hr, apply_redirect, is_normal]

theorem run_tokens_fields (ts : List CStr) : ∀ cmd : command_t,
    (run_tokens cmd ts).name = cmd.name ∧ (run_tokens cmd ts).background = cmd.background ∧
    (run_tokens cmd ts).auto_complete = cmd.auto_complete ∧
    (run_tokens cmd ts).next = cmd.next ∧
    (run_tokens cmd ts).redirects = ts.foldl apply_redirect cmd.redirects ∧
    (run_tokens cmd ts).args = cmd.args ++ (normal_args ts).map some := by
  induction ts with
  | nil => intro cmd; simp [run_tokens, normal_args]
  | cons t ts ih =>
    intro cmd
    obtain ⟨h1, h2, h3, h4, h5, h6⟩ := ih (store_token t cmd)
    obtain ⟨g1, g2, g3, g4, g5, g6⟩ := store_token_fields t cmd
    rw [run_tokens_cons]
    refine ⟨h1.trans g1, h2.trans g2, h3.trans g3, h4.trans g4, ?_, ?_⟩
    · rw [h5, g5]; rfl
    · rw [h6, g6]
      by_cases hn : is_normal t = true
      · simp [normal_args, List.filter_cons, hn]
      · simp [normal_args, List.filter_cons, hn]

/-! ## The epilogue: name first, sentinel last -/

theorem shift_args_spec (xs : List (Option CStr)) : ∀ (u : Option CStr) (tl : List (Option CStr)),
    shift_args xs.length (xs ++ u :: tl) = (xs ++ [u]).headD none :: (xs ++ tl) := by
  induction xs using List.reverseRecOn with
  | nil => intro u tl; simp [shift_args]
  | append_singleton ys y ih =>
    intro u tl
    have e1 : (ys ++ [y]).length = ys.length + 1 := by simp
    have e2 : ys ++ [y] ++ u :: tl = ys ++ y :: u :: tl := by simp
    rw [e1, e2]
    simp only [shift_args, getD_at_length]
    have e3 : (ys ++ y :: u :: tl).set (ys.length + 1) y = ys ++ y :: y :: tl := by
      simp
    rw [e3, ih y (y :: tl)]
    cases ys <;> simp

theorem parse_epilogue_fields (c : command_t) :
    (parse_epilogue c).name = c.name ∧ (parse_epilogue c).background = c.background ∧
    (parse_epilogue c).auto_complete = c.auto_complete ∧
    (parse_epilogue c).next = c.next ∧ (parse_epilogue c).redirects = c.redirects ∧
    (parse_epilogue c).arg_count = c.args.length + 2 ∧
    (parse_epilogue c).args = some c.name :: (c.args ++ [none]) := by
  refine ⟨by simp [parse_epilogue], by simp [parse_epilogue], by simp [parse_epilogue],
    by simp [parse_epilogue], by simp [parse_epilogue], by simp [parse_epilogue], ?_⟩
  have h := shift_args_spec c.args none [none]
  simp only [parse_epilogue, args_set_args, args_set_arg_count, Nat.add_sub_cancel]
  rw [h]
  have e : c.args.length + 2 - 1 = (((c.args ++ [none]).headD none) :: c.args).length := by simp
  rw [List.set_cons_zero, e]
  simp

/-! ## `parse_command` in terms of the loop -/

theorem parse_command_fuel_def (fuel : Nat) (buf : List Char) (c : command_t)
    (fresh : Nat → command_t) :
    parse_command_fuel fuel buf c fresh =
      match parse_loop fuel fresh (parse_prologue buf c).2 (parse_prologue buf c).1 with
      | none => none
      | some (ending.overflow, c, save) => some (none, c, save)
      | some (ending.returned, c, save) => some (some 0, parse_epilogue c, save) := rfl

/-- A loop that returns: the call returns 0 and leaves the epilogue's structure. -/
theorem parse_command_of_loop (buf : List Char) (c : command_t) (fresh : Nat → command_t)
    (n : Nat) (c' : command_t) (s : List Char) (hn : (parse_prologue buf c).2.length < n)
    (h : parse_loop n fresh (parse_prologue buf c).2 (parse_prologue buf c).1 =
      some (ending.returned, c', s)) :
    parse_command buf c fresh = parse_epilogue c' ∧
    parse_command_value buf c fresh = some 0 ∧
    parse_command_fuel (buf.length + 1) buf c fresh = some (some 0, parse_epilogue c', s) := by
  have hl := parse_prologue_length buf c
  have e := parse_loop_fuel (buf.length + 1) n fresh _ (parse_prologue buf c).1 (by omega) hn
  have e2 : parse_command_fuel (buf.length + 1) buf c fresh =
      some (some 0, parse_epilogue c', s) := by
    rw [parse_command_fuel_def, e, h]
  exact ⟨by unfold parse_command; rw [e2], by unfold parse_command_value; rw [e2], e2⟩

/-- A loop that overflows: the call does not return. -/
theorem parse_command_of_overflow (buf : List Char) (c : command_t) (fresh : Nat → command_t)
    (n : Nat) (c' : command_t) (s : List Char) (hn : (parse_prologue buf c).2.length < n)
    (h : parse_loop n fresh (parse_prologue buf c).2 (parse_prologue buf c).1 =
      some (ending.overflow, c', s)) :
    parse_command buf c fresh = c' ∧
    parse_command_value buf c fresh = none ∧
    parse_command_fuel (buf.length + 1) buf c fresh = some (none, c', s) := by
  have hl := parse_prologue_length buf c
  have e := parse_loop_fuel (buf.length + 1) n fresh _ (parse_prologue buf c).1 (by omega) hn
  have e2 : parse_command_fuel (buf.length + 1) buf c fresh = some (none, c', s) := by
    rw [parse_command_fuel_def, e, h]
  exact ⟨by unfold parse_command; rw [e2], by unfold parse_command_value; rw [e2], e2⟩

/-- The pipe branch of the loop.  When the call on the memory behind the pipe
token returns, the stage it built is linked as `next` and the loop then
stops; when it does not, neither does the loop. -/
theorem loop_pipe_next (n : Nat) (fresh : Nat → command_t) (save save' after : List Char)
    (cmd : command_t) (h : strtok save = (some ([PIPE], after), save'))
    (hn : after.length < n) :
    (parse_command_value (after.dropWhile is_delim) (fresh 0) (fun k => fresh (k + 1)) = some 0 →
      ∃ fin, parse_loop (n + 1) fresh save cmd =
        some (ending.returned, cmd.set_next (some (parse_command (after.dropWhile is_delim)
          (fresh 0) (fun k => fresh (k + 1)))), fin) ∧ Term fin) ∧
    (parse_command_value (after.dropWhile is_delim) (fresh 0) (fun k => fresh (k + 1)) ≠ some 0 →
      ∃ fin, parse_loop (n + 1) fresh save cmd = some (ending.overflow, cmd, fin)) := by
  rw [loop_pipe n fresh save save' after cmd h]
  have h1 := parse_prologue_length (after.dropWhile is_delim) (fresh 0)
  have h2 : (after.dropWhile is_delim).length ≤ after.length :=
    (List.dropWhile_sublist _).length_le
  have hlt : (parse_prologue (after.dropWhile is_delim) (fresh 0)).2.length < n := by omega
  obtain ⟨e, c, s, hc, _, hT⟩ := parse_loop_total n (fun k => fresh (k + 1)) _
    (parse_prologue (after.dropWhile is_delim) (fresh 0)).1 hlt
  rw [hc]
  cases e with
  | returned =>
    obtain ⟨hpc, hv, _⟩ := parse_command_of_loop _ _ _ n c s hlt hc
    refine ⟨fun _ => ?_, fun hne => absurd hv hne⟩
    rw [hpc]
    obtain ⟨n', rfl⟩ : ∃ n', n = n' + 1 := ⟨n - 1, by omega⟩
    exact ⟨s, loop_none n' fresh s s _ (strtok_Term s (hT rfl)), hT rfl⟩
  | overflow =>
    obtain ⟨_, hv, _⟩ := parse_command_of_overflow _ _ _ n c s hlt hc
    refine ⟨fun hret => ?_, fun _ => ⟨s, rfl⟩⟩
    rw [hv] at hret; cases hret

/-! ## The loop over the tokens of a line -/

theorem takeWhile_ne_pipe_cons (t : CStr) (ts : List CStr) (h : t ≠ [PIPE]) :
    (t :: ts).takeWhile (fun t => decide (t ≠ [PIPE])) =
      t :: ts.takeWhile (fun t => decide (t ≠ [PIPE])) := by
  simp [List.takeWhile, h]

/-- The name and the two flags are not touched by the loop, however it ends. -/
theorem parse_loop_keeps (n : Nat) : ∀ (fresh : Nat → command_t) (save : List Char)
    (cmd : command_t) (e : ending) (c : command_t) (fin : List Char),
    parse_loop n fresh save cmd = some (e, c, fin) →
    c.name = cmd.name ∧ c.background = cmd.background ∧ c.auto_complete = cmd.auto_complete := by
  induction n with
  | zero => intro _ _ _ _ _ _ h; simp [parse_loop] at h
  | succ n ih =>
    intro fresh save cmd e c fin hres
    rcases strtok_cases save with ⟨s', h, _, _⟩ | ⟨t, after, s', h, ht, _, _⟩
    · rw [loop_none n fresh save s' cmd h] at hres
      simp only [Option.some.injEq, Prod.mk.injEq] at hres
      obtain ⟨_, rfl, _⟩ := hres
      exact ⟨rfl, rfl, rfl⟩
    · by_cases hp : t = [PIPE]
      · subst hp
        rw [loop_pipe n fresh save s' after cmd h] at hres
        cases hn : parse_loop n (fun k => fresh (k + 1))
            (parse_prologue (after.dropWhile is_delim) (fresh 0)).2
            (parse_prologue (after.dropWhile is_delim) (fresh 0)).1 with
        | none => rw [hn] at hres; simp at hres
        | some x =>
          obtain ⟨e2, c2, s2⟩ := x
          rw [hn] at hres
          cases e2 with
          | overflow =>
            simp only [Option.some.injEq, Prod.mk.injEq] at hres
            obtain ⟨_, rfl, _⟩ := hres
            exact ⟨rfl, rfl, rfl⟩
          | returned =>
            have := ih fresh s2 _ e c fin hres
            simpa using this
      · by_cases hfit : t.length < 1024
        · rw [loop_tok n fresh save s' after t cmd h ht hp hfit] at hres
          obtain ⟨a1, a2, a3⟩ := ih fresh s' _ e c fin hres
          obtain ⟨g1, g2, g3, _⟩ := store_token_fields t cmd
          exact ⟨a1.trans g1, a2.trans g2, a3.trans g3⟩
        · rw [loop_overflow n fresh save s' after t cmd h ht (by omega)] at hres
          simp only [Option.some.injEq, Prod.mk.injEq] at hres
          obtain ⟨_, rfl, _⟩ := hres
          exact ⟨rfl, rfl, rfl⟩

/-- The loop, started on a line with the token list `ts`: its run ends; when
it returns, every token before the first pipe fits `temp_buf` and has been
handled, in order, and at a pipe the stage built by the call on the memory
behind it, which returned, is linked; on a line without pipe token whose
tokens all fit, it returns. -/
theorem loop_spec {s : List Char} {ts : List CStr} (h : Scan s ts) :
    ∀ (n : Nat) (fresh : Nat → command_t) (r : List Char) (cmd : command_t), Term r →
      (s ++ r).length < n →
      ∃ e c fin, parse_loop n fresh (s ++ r) cmd = some (e, c, fin) ∧
        (e = ending.returned → Term fin ∧
          (∀ t ∈ ts.takeWhile (fun t => decide (t ≠ [PIPE])), t.length < 1024) ∧
          ([PIPE] ∉ ts → c = run_tokens cmd ts) ∧
          ([PIPE] ∈ ts → ∃ buf',
            parse_command_value buf' (fresh 0) (fun k => fresh (k + 1)) = some 0 ∧
            c = (run_tokens cmd (ts.takeWhile (fun t => decide (t ≠ [PIPE])))).set_next
              (some (parse_command buf' (fresh 0) (fun k => fresh (k + 1)))))) ∧
        ((∀ t ∈ ts, t.length < 1024) → [PIPE] ∉ ts → e = ending.returned) := by
  induction h with
  | done w hw =>
    intro n fresh r cmd hr hn
    obtain ⟨n', rfl⟩ : ∃ n', n = n' + 1 := ⟨n - 1, by omega⟩
    refine ⟨ending.returned, cmd, r, loop_none n' fresh _ r cmd (strtok_none_of w r hw hr),
      fun _ => ⟨hr, ?_, ?_, ?_⟩, fun _ _ => rfl⟩
    · intro t ht; simp at ht
    · intro _; rfl
    · intro hm; simp at hm
  | last w t hw ht =>
    intro n fresh r cmd hr hn
    obtain ⟨n', rfl⟩ : ∃ n', n = n' + 1 := ⟨n - 1, by omega⟩
    have hst : strtok (w ++ t ++ r) = (some (t, r.tail), r) := by
      rw [List.append_assoc]; exact strtok_tok_end w t r hw ht hr
    have hpos := Tok_length_pos ht
    simp only [List.length_append] at hn
    by_cases hp : t = [PIPE]
    · subst hp
      have := Term_tail_length r
      obtain ⟨hyes, hno⟩ := loop_pipe_next n' fresh _ r r.tail cmd hst (by omega)
      by_cases hv : parse_command_value (r.tail.dropWhile is_delim) (fresh 0)
          (fun k => fresh (k + 1)) = some 0
      · obtain ⟨fin, hfin, hT⟩ := hyes hv
        refine ⟨_, _, fin, hfin, fun _ => ⟨hT, ?_, ?_, ?_⟩, fun _ hnp => absurd (by simp) hnp⟩
        · intro t ht; simp [List.takeWhile] at ht
        · intro hm; simp at hm
        · intro _
          exact ⟨List.dropWhile is_delim r.tail, hv, by simp [List.takeWhile, run_tokens]⟩
      · obtain ⟨fin, hfin⟩ := hno hv
        exact ⟨_, _, fin, hfin, (fun h => by cases h), fun _ hnp => absurd (by simp) hnp⟩
    · by_cases hfit : t.length < 1024
      · rw [loop_tok n' fresh _ r r.tail t cmd hst ht hp hfit]
        obtain ⟨n'', rfl⟩ : ∃ n'', n' = n'' + 1 := ⟨n' - 1, by omega⟩
        refine ⟨ending.returned, _, r, loop_none n'' fresh r r _ (strtok_Term r hr),
          fun _ => ⟨hr, ?_, ?_, ?_⟩, fun _ _ => rfl⟩
        · intro t' ht'
          have := (List.takeWhile_sublist _).subset ht'
          simp at this; subst this; exact hfit
        · intro _; rfl
        · intro hm; simp at hm; exact absurd hm.symm hp
      · rw [loop_overflow n' fresh _ r r.tail t cmd hst ht (by omega)]
        exact ⟨_, _, _, rfl, (fun h => by cases h),
          fun hall _ => absurd (hall t (List.mem_singleton_self t)) hfit⟩
  | cons w t d m ts hw ht hd _ ih =>
    intro n fresh r cmd hr hn
    obtain ⟨n', rfl⟩ : ∃ n', n = n' + 1 := ⟨n - 1, by omega⟩
    have hst : strtok (w ++ (t ++ d :: m) ++ r) = (some (t, m ++ r), m ++ r) := by
      have := strtok_tok_delim w t (m ++ r) d hw ht hd
      simpa using this
    have hpos := Tok_length_pos ht
    simp only [List.length_append, List.length_cons] at hn
    by_cases hp : t = [PIPE]
    · subst hp
      obtain ⟨hyes, hno⟩ := loop_pipe_next n' fresh _ (m ++ r) (m ++ r) cmd hst
        (by simp only [List.length_append]; omega)
      by_cases hv : parse_command_value ((m ++ r).dropWhile is_delim) (fresh 0)
          (fun k => fresh (k + 1)) = some 0
      · obtain ⟨fin, hfin, hT⟩ := hyes hv
        refine ⟨_, _, fin, hfin, fun _ => ⟨hT, ?_, ?_, ?_⟩, fun _ hnp => absurd (by simp) hnp⟩
        · intro t ht; simp [List.takeWhile] at ht
        · intro hm; simp at hm
        · intro _
          exact ⟨List.dropWhile is_delim (m ++ r), hv, by simp [List.takeWhile, run_tokens]⟩
      · obtain ⟨fin, hfin⟩ := hno hv
        exact ⟨_, _, fin, hfin, (fun h => by cases h), fun _ hnp => absurd (by simp) hnp⟩
    · by_cases hfit : t.length < 1024
      · rw [loop_tok n' fresh _ (m ++ r) (m ++ r) t cmd hst ht hp hfit]
        obtain ⟨e, c, fin, hc, hret, hsuf⟩ := ih n' fresh r (store_token t cmd) hr
          (by simp only [List.length_append]; omega)
        refine ⟨e, c, fin, hc, fun he => ?_, fun hall hnp => ?_⟩
        · obtain ⟨hT, hb, h1, h2⟩ := hret he
          refine ⟨hT, ?_, ?_, ?_⟩
          · intro t' ht'
            rw [takeWhile_ne_pipe_cons t ts hp] at ht'
            rcases List.mem_cons.mp ht' with hx | hx
            · subst hx; exact hfit
            · exact hb t' hx
          · intro hm
            rw [run_tokens_cons]
            exact h1 (fun hx => hm (List.mem_cons_of_mem _ hx))
          · intro hm
            have hm' : [PIPE] ∈ ts := by
              rcases List.mem_cons.mp hm with hx | hx
              · exact absurd hx.symm hp
              · exact hx
            obtain ⟨buf', hv, hb'⟩ := h2 hm'
            exact ⟨buf', hv, by rw [takeWhile_ne_pipe_cons t ts hp, run_tokens_cons]; exact hb'⟩
        · exact hsuf (fun t' ht' => hall t' (List.mem_cons_of_mem _ ht'))
            (fun hx => hnp (List.mem_cons_of_mem _ hx))
      · rw [loop_overflow n' fresh _ (m ++ r) (m ++ r) t cmd hst ht (by omega)]
        exact ⟨_, _, _, rfl, (fun h => by cases h),
          fun hall _ => absurd (hall t (List.mem_cons_self _ _)) hfit⟩

/-! ## The prologue: trimming, flags and name -/

theorem rdropWhile_append_all (p : Char → Bool) (l b : List Char) (hb : ∀ x ∈ b, p x = true) :
    (l ++ b).rdropWhile p = l.rdropWhile p := by
  induction b using List.reverseRecOn with
  | nil => simp
  | append_singleton b e ih =>
    rw [← List.append_assoc, List.rdropWhile_concat_pos _ _ _ (hb e (by simp))]
    exact ih (fun x hx => hb x (by simp [hx]))

theorem trim_ws_blank (s : List Char) (hs : AllDelim s) : trim_ws s = [] := by
  have h := (takeWhile_append_all is_delim s [] hs).2
  simp only [List.append_nil, List.dropWhile_nil] at h
  simp [trim_ws, h]

theorem trim_ws_core (a core b : List Char) (ha : AllDelim a) (hc : Core core)
    (hb : AllDelim b) : trim_ws (a ++ (core ++ b)) = core := by
  obtain ⟨_, ⟨c, x, hcx, hcd⟩, ⟨y, e, hye, hed⟩⟩ := hc
  have h1 := (takeWhile_append_all is_delim a (core ++ b) ha).2
  have h2 : (core ++ b).dropWhile is_delim = core ++ b := by
    rw [hcx]; simp [List.dropWhile, hcd]
  unfold trim_ws
  rw [h1, h2, rdropWhile_append_all is_delim core b hb, hye]
  exact List.rdropWhile_concat_neg _ _ _ (by simp [hed])

theorem Term_replicate_append (k : Nat) (r : List Char) (hr : Term r) :
    Term (List.replicate k NUL ++ r) := by
  cases k with
  | zero => simpa using hr
  | succ k => simp [Term, List.replicate_succ]

/-- The flags computed by the code on a trimmed line with a non-empty core. -/
theorem flags_core (c : command_t) (s y rest : List Char) (e : Char)
    (hs : trim_ws s = y ++ [e]) :
    code_flags c ((y ++ [e]) ++ rest, (y ++ [e]).length) = with_flags c s := by
  have e1 : (y ++ [e]).length - 1 = y.length := by simp
  have e2 : (y ++ [e]) ++ rest = y ++ e :: rest := by simp
  have e3 : (y ++ [e]).length > 0 := by simp
  have e4 : (y ++ [e]).getLast? = some e := by simp
  simp only [code_flags, with_flags, hs, e1, e2, getD_at_length, e4, Option.some.injEq,
    decide_eq_true e3, Bool.true_and, beq_iff_eq]

theorem flags_blank (c : command_t) (s r : List Char) (hs : AllDelim s) :
    code_flags c (r, 0) = with_flags c s := by
  simp [code_flags, with_flags, trim_ws_blank s hs]

/-- The prologue on any memory content: the flags of the trimmed line, the
first token as name, and `strtok` left at the remainder of the line. -/
theorem prologue_spec (buf : List Char) (c : command_t) :
    ∃ m r', parse_prologue buf c =
        (((with_flags c (cstr buf)).set_name ((tokens (cstr buf)).headD [])).set_args [],
          m ++ r') ∧ Term r' ∧ Scan m (tokens (cstr buf)).tail := by
  obtain ⟨r, hbuf, hr⟩ := mem_split buf
  have hsc := scan_tokens (cstr buf) (cstr_is_NF buf)
  generalize hs : cstr buf = s at hbuf hsc
  generalize hts : tokens s = ts at hsc
  rw [parse_prologue_eq, hbuf]
  rcases core_decomp hsc with ⟨hall, rfl⟩ | ⟨a, core, b, rfl, ha, hb, hcore, hsc2, hne⟩
  · rw [trimmed_blank s r hall hr, strtok_Term r hr, flags_blank c s r hall]
    exact ⟨[], r, rfl, hr, Scan.done [] AllDelim_nil⟩
  · have htr : trimmed (a ++ (core ++ b) ++ r) =
        (core ++ (List.replicate b.length NUL ++ r), core.length) := by
      have := trimmed_core a core b r ha hcore hb hr
      simpa using this
    have hws := trim_ws_core a core b ha hcore hb
    have hT := Term_replicate_append b.length r hr
    obtain ⟨y, e, hye, _⟩ := hcore.2.2
    have hfl : code_flags c (core ++ (List.replicate b.length NUL ++ r), core.length) =
        with_flags c (a ++ (core ++ b)) := by
      have := flags_core c (a ++ (core ++ b)) y (List.replicate b.length NUL ++ r) e
        (by rw [hws, hye])
      rw [← hye] at this
      exact this
    rw [htr, hfl]
    simp only
    cases hsc2 with
    | done w hw => exact absurd rfl hne
    | last w t hw ht =>
      rw [List.append_assoc, strtok_tok_end w t _ hw ht hT]
      refine ⟨[], _, ?_, hT, Scan.done [] AllDelim_nil⟩
      simp only [List.nil_append, List.headD_cons, cstr_NF t (Tok_NF ht)]
    | cons w t d m ts' hw ht hd hm =>
      have : w ++ (t ++ d :: m) ++ (List.replicate b.length NUL ++ r) =
          w ++ (t ++ d :: (m ++ (List.replicate b.length NUL ++ r))) := by simp
      rw [this, strtok_tok_delim w t _ d hw ht hd]
      refine ⟨m, _, ?_, hT, hm⟩
      simp only [List.headD_cons, cstr_NF t (Tok_NF ht)]

/-! ## The head stage of `parse_command`, for every memory content -/

theorem with_flags_fields (c : command_t) (s : CStr) :
    (with_flags c s).name = c.name ∧ (with_flags c s).args = c.args ∧
    (with_flags c s).redirects = c.redirects ∧ (with_flags c s).next = c.next ∧
    (with_flags c s).arg_count = c.arg_count := by
  unfold with_flags
  simp only
  split <;> split <;> simp

theorem with_flags_background (c : command_t) (s : CStr) :
    (with_flags c s).background = (c.background || decide ((trim_ws s).getLast? = some AMP)) := by
  have hqa : QMARK ≠ AMP := by decide
  by_cases h1 : (trim_ws s).getLast? = some AMP <;>
  by_cases h2 : (trim_ws s).getLast? = some QMARK <;>
  simp [with_flags, h1, h2, hqa, hqa.symm]

theorem with_flags_auto_complete (c : command_t) (s : CStr) :
    (with_flags c s).auto_complete =
      (c.auto_complete || decide ((trim_ws s).getLast? = some QMARK)) := by
  have hqa : QMARK ≠ AMP := by decide
  by_cases h1 : (trim_ws s).getLast? = some AMP <;>
  by_cases h2 : (trim_ws s).getLast? = some QMARK <;>
  simp [with_flags, h1, h2, hqa, hqa.symm]

theorem takeWhile_ne_pipe_self (ts : List CStr) (h : [PIPE] ∉ ts) :
    ts.takeWhile (fun t => decide (t ≠ [PIPE])) = ts := by
  rw [List.takeWhile_eq_self_iff]
  intro t ht
  simp only [ne_eq, decide_eq_true_eq]
  intro hp; subst hp; exact h ht

/-- How the run on any memory content ends: by the return of 0 after a loop
that returned, or by an overflow. -/
theorem parse_command_cases (buf : List Char) (c : command_t) (fresh : Nat → command_t) :
    ∃ e cl fin, parse_loop (buf.length + 1) fresh (parse_prologue buf c).2
        (parse_prologue buf c).1 = some (e, cl, fin) ∧
      (e = ending.returned → parse_command buf c fresh = parse_epilogue cl ∧
        parse_command_value buf c fresh = some 0 ∧
        parse_command_fuel (buf.length + 1) buf c fresh = some (some 0, parse_epilogue cl, fin)) ∧
      (e = ending.overflow → parse_command buf c fresh = cl ∧
        parse_command_value buf c fresh = none ∧
        parse_command_fuel (buf.length + 1) buf c fresh = some (none, cl, fin)) := by
  have hl := parse_prologue_length buf c
  obtain ⟨e, cl, fin, h, _, _⟩ := parse_loop_total (buf.length + 1) fresh (parse_prologue buf c).2
    (parse_prologue buf c).1 (by omega)
  refine ⟨e, cl, fin, h, fun he => ?_, fun he => ?_⟩
  · subst he; exact parse_command_of_loop buf c fresh _ cl fin (by omega) h
  · subst he; exact parse_command_of_overflow buf c fresh _ cl fin (by omega) h

/-- The name and the two flags at the end of the run, for every memory
content and however the run ends: they are stored before the loop. -/
theorem parse_command_flags (buf : List Char) (c : command_t) (fresh : Nat → command_t) :
    (parse_command buf c fresh).name = (tokens (cstr buf)).headD [] ∧
    (parse_command buf c fresh).background =
      (c.background || decide ((trim_ws (cstr buf)).getLast? = some AMP)) ∧
    (parse_command buf c fresh).auto_complete =
      (c.auto_complete || decide ((trim_ws (cstr buf)).getLast? = some QMARK)) := by
  obtain ⟨m, r', hpro, _, _⟩ := prologue_spec buf c
  obtain ⟨e, cl, fin, hloop, hret, hov⟩ := parse_command_cases buf c fresh
  obtain ⟨k1, k2, k3⟩ := parse_loop_keeps _ _ _ _ _ _ _ hloop
  rw [hpro] at k1 k2 k3
  simp only [name_set_args, name_set_name, background_set_args, background_set_name,
    auto_complete_set_args, auto_complete_set_name, with_flags_background,
    with_flags_auto_complete] at k1 k2 k3
  cases e with
  | returned =>
    obtain ⟨e1, e2, e3, _⟩ := parse_epilogue_fields cl
    rw [(hret rfl).1, e1, e2, e3]
    exact ⟨k1, k2, k3⟩
  | overflow =>
    rw [(hov rfl).1]
    exact ⟨k1, k2, k3⟩

/-- The command before the epilogue when the call returns: every field of
the head stage, for every memory content `buf`, prior structure `c` and prior
contents `fresh` of the structures allocated for piped stages. -/
theorem parse_command_spec (buf : List Char) (c : command_t) (fresh : Nat → command_t)
    (hret : parse_command_value buf c fresh = some 0) :
    ∃ c' fin, parse_command_fuel (buf.length + 1) buf c fresh =
        some (some 0, parse_epilogue c', fin) ∧
      parse_command buf c fresh = parse_epilogue c' ∧
      c'.name = (tokens (cstr buf)).headD [] ∧
      c'.args = (normal_args (stage_tokens (tokens (cstr buf)))).map some ∧
      c'.redirects = (stage_tokens (tokens (cstr buf))).foldl apply_redirect c.redirects ∧
      c'.background = (c.background || decide ((trim_ws (cstr buf)).getLast? = some AMP)) ∧
      c'.auto_complete =
        (c.auto_complete || decide ((trim_ws (cstr buf)).getLast? = some QMARK)) ∧
      (∀ t ∈ stage_tokens (tokens (cstr buf)), t.length < 1024) ∧
      ([PIPE] ∉ (tokens (cstr buf)).tail → c'.next = c.next) ∧
      ([PIPE] ∈ (tokens (cstr buf)).tail →
        ∃ buf', parse_command_value buf' (fresh 0) (fun k => fresh (k + 1)) = some 0 ∧
          c'.next = some (parse_command buf' (fresh 0) (fun k => fresh (k + 1)))) := by
  obtain ⟨m, r', hpro, hT, hsc⟩ := prologue_spec buf c
  have hlen := parse_prologue_length buf c
  rw [hpro] at hlen
  simp only at hlen
  obtain ⟨e, cl, fin, hloop, hres, _⟩ := loop_spec hsc (buf.length + 1) fresh r'
    (((with_flags c (cstr buf)).set_name ((tokens (cstr buf)).headD [])).set_args []) hT
    (by omega)
  have he : e = ending.returned := by
    cases e with
    | returned => rfl
    | overflow =>
      have := (parse_command_of_overflow buf c fresh (buf.length + 1) cl fin
        (by rw [hpro]; simp only; omega) (by rw [hpro]; exact hloop)).2.1
      rw [this] at hret; cases hret
  subst he
  obtain ⟨_, hbound, hno, hyes⟩ := hres rfl
  have hpc := parse_command_of_loop buf c fresh (buf.length + 1) cl fin
    (by rw [hpro]; simp only; omega) (by rw [hpro]; exact hloop)
  obtain ⟨w1, w2, w3, w4, w5⟩ := with_flags_fields c (cstr buf)
  refine ⟨cl, fin, hpc.2.2, hpc.1, ?_⟩
  by_cases hp : [PIPE] ∈ (tokens (cstr buf)).tail
  · obtain ⟨buf', hv, hb⟩ := hyes hp
    obtain ⟨f1, f2, f3, f4, f5, f6⟩ := run_tokens_fields
      ((tokens (cstr buf)).tail.takeWhile (fun t => decide (t ≠ [PIPE])))
      (((with_flags c (cstr buf)).set_name ((tokens (cstr buf)).headD [])).set_args [])
    rw [hb]
    simp only [name_set_next, args_set_next, redirects_set_next, background_set_next,
      auto_complete_set_next, next_set_next, f1, f2, f3, f5, f6, stage_tokens]
    simp only [name_set_args, name_set_name, args_set_args, redirects_set_args,
      redirects_set_name, background_set_args, background_set_name, auto_complete_set_args,
      auto_complete_set_name, w3, with_flags_background, with_flags_auto_complete,
      List.nil_append, true_and]
    exact ⟨hbound, fun h => absurd hp h, fun _ => ⟨buf', hv, rfl⟩⟩
  · have hc := hno hp
    obtain ⟨f1, f2, f3, f4, f5, f6⟩ := run_tokens_fields (tokens (cstr buf)).tail
      (((with_flags c (cstr buf)).set_name ((tokens (cstr buf)).headD [])).set_args [])
    rw [hc]
    simp only [f1, f2, f3, f4, f5, f6, stage_tokens, takeWhile_ne_pipe_self _ hp]
    simp only [name_set_args, name_set_name, args_set_args, redirects_set_args,
      redirects_set_name, background_set_args, background_set_name, auto_complete_set_args,
      auto_complete_set_name, next_set_args, next_set_name, w3, w4, with_flags_background,
      with_flags_auto_complete, List.nil_append, true_and]
    refine ⟨?_, fun _ => trivial, fun h => absurd h hp⟩
    have := hbound
    rwa [takeWhile_ne_pipe_self _ hp] at this

/-- On a line without pipe token after the first, whose tokens after the
first all fit `temp_buf`, the call returns 0. -/
theorem parse_command_returns (buf : List Char) (c : command_t) (fresh : Nat → command_t)
    (hnp : [PIPE] ∉ (tokens (cstr buf)).tail)
    (hlen : ∀ t ∈ (tokens (cstr buf)).tail, t.length < 1024) :
    parse_command_value buf c fresh = some 0 := by
  obtain ⟨m, r', hpro, hT, hsc⟩ := prologue_spec buf c
  have hl := parse_prologue_length buf c
  rw [hpro] at hl
  simp only at hl
  obtain ⟨e, cl, fin, hloop, _, hsuf⟩ := loop_spec hsc (buf.length + 1) fresh r'
    (((with_flags c (cstr buf)).set_name ((tokens (cstr buf)).headD [])).set_args []) hT
    (by omega)
  have he := hsuf hlen hnp
  subst he
  exact (parse_command_of_loop buf c fresh (buf.length + 1) cl fin
    (by rw [hpro]; simp only; omega) (by rw [hpro]; exact hloop)).2.1

/-! ## The head stage after the epilogue -/

/-- Every field of the structure `parse_command` leaves behind when it
returns, for every memory content: the value is 0, the name is the first
token, `args` is the name, the normal arguments of the stage and the null
sentinel, the redirection slots are the prior ones updated by the stage's
tokens in order, the flags are only ever set, every token of the stage fits
`temp_buf`, and `next` is either untouched (no pipe) or a stage that a call
of `parse_command` which returned built on the structure `fresh 0`. -/
theorem parse_command_result (buf : List Char) (c : command_t) (fresh : Nat → command_t)
    (hret : parse_command_value buf c fresh = some 0) :
    (∃ fin, parse_command_fuel (buf.length + 1) buf c fresh =
      some (some 0, parse_command buf c fresh, fin)) ∧
    (parse_command buf c fresh).name = (tokens (cstr buf)).headD [] ∧
    (parse_command buf c fresh).args =
      some ((tokens (cstr buf)).headD []) ::
        ((normal_args (stage_tokens (tokens (cstr buf)))).map some ++ [none]) ∧
    (parse_command buf c fresh).arg_count =
      (normal_args (stage_tokens (tokens (cstr buf)))).length + 2 ∧
    (parse_command buf c fresh).redirects =
      (stage_tokens (tokens (cstr buf))).foldl apply_redirect c.redirects ∧
    (parse_command buf c fresh).background =
      (c.background || decide ((trim_ws (cstr buf)).getLast? = some AMP)) ∧
    (parse_command buf c fresh).auto_complete =
      (c.auto_complete || decide ((trim_ws (cstr buf)).getLast? = some QMARK)) ∧
    ([PIPE] ∉ (tokens (cstr buf)).tail → (parse_command buf c fresh).next = c.next) ∧
    ([PIPE] ∈ (tokens (cstr buf)).tail → ∃ buf',
      parse_command_value buf' (fresh 0) (fun k => fresh (k + 1)) = some 0 ∧
      (parse_command buf c fresh).next =
        some (parse_command buf' (fresh 0) (fun k => fresh (k + 1)))) := by
  obtain ⟨c', fin, h0, h1, h2, h3, h4, h5, h6, _, h7, h8⟩ := parse_command_spec buf c fresh hret
  obtain ⟨e1, e2, e3, e4, e5, e6, e7⟩ := parse_epilogue_fields c'
  rw [h1]
  refine ⟨⟨fin, h0⟩, e1.trans h2, ?_, ?_, e5.trans h4, e2.trans h5, e3.trans h6, ?_, ?_⟩
  · rw [e7, h2, h3]
  · rw [e6, h3]; simp
  · intro hp; rw [e4]; exact h7 hp
  · intro hp; rw [e4]; exact h8 hp

/-- The last token of a line ends with the last byte of the trimmed line. -/
theorem scan_last_char {s : List Char} {ts : List CStr} (h : Scan s ts) :
    ∀ (y : List Char) (e : Char), s = y ++ [e] → is_delim e = false →
      ∃ t y', ts.getLast? = some t ∧ t = y' ++ [e] := by
  induction h with
  | done w hw =>
    intro y e hs he
    have := hw e (by rw [hs]; simp)
    rw [he] at this; exact absurd this (by simp)
  | last w t hw ht =>
    intro y e hs he
    obtain ⟨y', e', hye, _⟩ := Tok_last ht
    rw [hye, ← List.append_assoc] at hs
    have := List.append_inj_right' hs rfl
    simp only [List.cons.injEq, and_true] at this
    exact ⟨t, y', by simp, by rw [hye, this]⟩
  | cons w t d m ts hw ht hd hm ih =>
    intro y e hs he
    rcases List.eq_nil_or_concat m with hm0 | ⟨y2, e2, hm2⟩
    · subst hm0
      have h1 : w ++ (t ++ [d]) = (w ++ t) ++ [d] := by simp
      rw [h1] at hs
      have := List.append_inj_right' hs rfl
      simp only [List.cons.injEq, and_true] at this
      rw [this, he] at hd; exact absurd hd (by simp)
    · rw [List.concat_eq_append] at hm2
      subst hm2
      have h1 : w ++ (t ++ d :: (y2 ++ [e2])) = (w ++ (t ++ d :: y2)) ++ [e2] := by simp
      rw [h1] at hs
      have := List.append_inj_right' hs rfl
      simp only [List.cons.injEq, and_true] at this
      subst this
      obtain ⟨t', y', h3, h4⟩ := ih y2 e2 rfl he
      refine ⟨t', y', ?_, h4⟩
      cases ts with
      | nil => simp at h3
      | cons a ts => simpa [List.getLast?_cons_cons] using h3

theorem last_token_last_char (s : List Char) (hs : NF s) (y : List Char) (e : Char)
    (h : trim_ws s = y ++ [e]) :
    ∃ t y', (tokens s).getLast? = some t ∧ t = y' ++ [e] := by
  have hsc := scan_tokens s hs
  rcases core_decomp hsc with ⟨hall, _⟩ | ⟨a, core, b, rfl, ha, hb, hcore, hsc2, _⟩
  · rw [trim_ws_blank s hall] at h; simp at h
  · rw [trim_ws_core a core b ha hcore hb] at h
    obtain ⟨y0, e0, hye, hed⟩ := hcore.2.2
    have : e0 = e := by
      rw [hye] at h
      have := List.append_inj_right' h rfl
      simpa using this
    subst this
    exact scan_last_char hsc2 y0 e0 hye hed

/-! ## A line split by a pipe -/

theorem scan_unique {s : List Char} {ts : List CStr} (h : Scan s ts) : tokens s = ts := by
  induction h with
  | done w hw => exact tokens_alldelim w hw
  | last w t hw ht => rw [tokens_alldelim_append w t hw, tokens_tok t ht]
  | cons w t d s ts hw ht hd _ ih =>
    rw [tokens_alldelim_append w _ hw, tokens_tok_delim t s d ht hd, ih]

/-- C1, as stated, fails on the code: the first token keeps its quotes (the
line `"ls"` gives the argument `"ls"`, not `ls`), a token `&` after the first
is not an argument (`a & b` gives `a`, `b`), and a blank line gives one
argument, the empty name, although it has no token. -/
theorem C1_counterexample :
    ((∀ t ∈ tokens (cstr line_quoted_ls), t ≠ [PIPE] ∧ t.head? ≠ some LT ∧ t.head? ≠ some GT) ∧
      (parse_command line_quoted_ls command_t.zeroed fresh_zeroed).args ≠
        (tokens (cstr line_quoted_ls)).map (fun t => some (strip_quotes t)) ++ [none] ∧
      (parse_command line_quoted_ls command_t.zeroed fresh_zeroed).args =
        [some [DQUOTE, 'l', 's', DQUOTE], none]) ∧
    ((∀ t ∈ tokens (cstr line_a_amp_b), t ≠ [PIPE] ∧ t.head? ≠ some LT ∧ t.head? ≠ some GT) ∧
      (parse_command line_a_amp_b command_t.zeroed fresh_zeroed).args ≠
        (tokens (cstr line_a_amp_b)).map (fun t => some (strip_quotes t)) ++ [none] ∧
      (parse_command line_a_amp_b command_t.zeroed fresh_zeroed).args =
        [some ['a'], some ['b'], none]) ∧
    (tokens (cstr []) = [] ∧
      (parse_command [] command_t.zeroed fresh_zeroed).args = [some [], none]) := by
  decide

/-- C1, amended: on a line with no token equal to `|`, none starting with `<`
or `>`, no token `&` after the first, and every token after the first
shorter than 1024 bytes (so that it fits `temp_buf`), `parse_command` returns
0 and `args` is the first token as it stands (the empty string on a blank
line), then the other tokens in order, each stripped of a wrapping pair of
matching quotes when it is longer than two characters, then the null
sentinel. -/
theorem C1_args_are_tokens (buf : List Char) (c : command_t) (fresh : Nat → command_t)
    (hplain : ∀ t ∈ tokens (cstr buf), t ≠ [PIPE] ∧ t.head? ≠ some LT ∧ t.head? ≠ some GT)
    (hamp : [AMP] ∉ (tokens (cstr buf)).tail)
    (hlen : ∀ t ∈ (tokens (cstr buf)).tail, t.length < 1024) :
    parse_command_value buf c fresh = some 0 ∧
    (parse_command buf c fresh).args =
      some ((tokens (cstr buf)).headD []) ::
        ((tokens (cstr buf)).tail.map (fun t => some (strip_quotes t)) ++ [none]) := by
  have htail : ∀ t ∈ (tokens (cstr buf)).tail, t ∈ tokens (cstr buf) :=
    fun t ht => List.mem_of_mem_tail ht
  have hnp : [PIPE] ∉ (tokens (cstr buf)).tail := fun h => (hplain _ (htail _ h)).1 rfl
  have hret := parse_command_returns buf c fresh hnp hlen
  have hres := (parse_command_result buf c fresh hret).2.2.1
  have hst : stage_tokens (tokens (cstr buf)) = (tokens (cstr buf)).tail := by
    unfold stage_tokens; exact takeWhile_ne_pipe_self _ hnp
  have hfil : (tokens (cstr buf)).tail.filter is_normal = (tokens (cstr buf)).tail := by
    rw [List.filter_eq_self]
    intro t ht
    have h1 := hplain t (htail t ht)
    have h2 : t ≠ [AMP] := fun h => hamp (h ▸ ht)
    simp [is_normal, redirect_of, h1.2.1, h1.2.2, h2]
  refine ⟨hret, ?_⟩
  rw [hres, hst]
  simp only [normal_args, hfil, List.map_map]
  rfl

/-- C1, amended, at the line `echo "hello"`: the arguments are `echo`, `hello`. -/
theorem C1_args_are_tokens_witness :
    (∀ t ∈ tokens (cstr line_echo_hello), t ≠ [PIPE] ∧ t.head? ≠ some LT ∧ t.head? ≠ some GT) ∧
    [AMP] ∉ (tokens (cstr line_echo_hello)).tail ∧
    (∀ t ∈ (tokens (cstr line_echo_hello)).tail, t.length < 1024) ∧
    (parse_command_value line_echo_hello command_t.zeroed fresh_zeroed = some 0 ∧
      (parse_command line_echo_hello command_t.zeroed fresh_zeroed).args =
        some ((tokens (cstr line_echo_hello)).headD []) ::
          ((tokens (cstr line_echo_hello)).tail.map (fun t => some (strip_quotes t)) ++
            [none])) ∧
    (parse_command line_echo_hello command_t.zeroed fresh_zeroed).args =
      [some ['e', 'c', 'h', 'o'], some ['h', 'e', 'l', 'l', 'o'], none] :=
  ⟨by decide, by decide, by decide,
    C1_args_are_tokens line_echo_hello command_t.zeroed fresh_zeroed (by decide) (by decide)
      (by decide),
    by decide⟩

/-- C2 at its failing inputs.  The structure allocated for a piped stage is
never cleared, so the last stage keeps whatever `next` the allocation held:
with a stale pointer there, `a | b | c` yields four stages, not three (with
zero-filled allocations it yields the three stages `a`, `b`, `c`).  And when
the line ends with the pipe, the terminator of the buffer is overwritten and
the next stage is parsed from the bytes behind it: with a stale `z` there,
`a |` is followed by a stage named `z`, while parsing the empty rest gives
the empty name.  When a blank follows the pipe and the tokens fit
`temp_buf`, the split itself is as claimed (`parse_command_pipe`). -/
theorem C2_pipe_chain_failures :
    (chain (parse_command line_a_b_c command_t.zeroed fresh_stale)).map command_t.name =
      [['a'], ['b'], ['c'], ['x']] ∧
    (chain (parse_command line_a_b_c command_t.zeroed fresh_zeroed)).map command_t.name =
      [['a'], ['b'], ['c']] ∧
    ((parse_command buf_a_pipe_stale command_t.zeroed fresh_zeroed).next.map command_t.name =
      some ['z'] ∧
     (parse_command [] (fresh_zeroed 0) (fun k => fresh_zeroed (k + 1))).name = []) := by
  decide

/-- C4 at its failing inputs.  On `ls&` and on `sleep 5&` the flag
`background` is set, yet the `&` is not dropped from the line: it stays the
last character of the name `ls&`, and of the argument `5&`.  Only a token
that is exactly `&` is dropped by the loop: `sleep 5 &` gives the arguments
`sleep`, `5`. -/
theorem C4_attached_amp_kept :
    ((trim_ws (cstr line_ls_amp)).getLast? = some AMP ∧
      parse_command_value line_ls_amp command_t.zeroed fresh_zeroed = some 0 ∧
      (parse_command line_ls_amp command_t.zeroed fresh_zeroed).background = true ∧
      (parse_command line_ls_amp command_t.zeroed fresh_zeroed).name = ['l', 's', AMP] ∧
      (parse_command line_ls_amp command_t.zeroed fresh_zeroed).name.getLast? = some AMP) ∧
    ((trim_ws (cstr line_sleep_5_amp)).getLast? = some AMP ∧
      parse_command_value line_sleep_5_amp command_t.zeroed fresh_zeroed = some 0 ∧
      (parse_command line_sleep_5_amp command_t.zeroed fresh_zeroed).background = true ∧
      (parse_command line_sleep_5_amp command_t.zeroed fresh_zeroed).args =
        [some ['s', 'l', 'e', 'e', 'p'], some ['5', AMP], none]) ∧
    ((trim_ws (cstr line_sleep_5_sp_amp)).getLast? = some AMP ∧
      parse_command_value line_sleep_5_sp_amp command_t.zeroed fresh_zeroed = some 0 ∧
      (parse_command line_sleep_5_sp_amp command_t.zeroed fresh_zeroed).background = true ∧
      (parse_command line_sleep_5_sp_amp command_t.zeroed fresh_zeroed).args =
        [some ['s', 'l', 'e', 'e', 'p'], some ['5'], none]) := by
  decide

/-- C6 at its failing inputs.  The structure allocated for a piped stage is
never cleared, so the last stage keeps the `next` the allocation held: with a
stale pointer there, the chain built from `a | b | c` has a fourth stage,
which `parse_command` never filled: its `arg_count` is 0 and its `args` holds
no sentinel (with zero-filled allocations the chain has the three stages,
each with its name first and the sentinel last).  And on the line `echo`
followed by an argument of 1100 bytes the copy into `temp_buf` overflows:
the call does not return 0 (the same line with the argument `hello` does). -/
theorem C6_convention_failures :
    (chain (parse_command line_a_b_c command_t.zeroed fresh_stale)).map
        (fun s => (s.name, s.arg_count, s.args)) =
      [(['a'], 2, [some ['a'], none]), (['b'], 2, [some ['b'], none]),
        (['c'], 2, [some ['c'], none]), (['x'], 0, [])] ∧
    (chain (parse_command line_a_b_c command_t.zeroed fresh_zeroed)).map
        (fun s => (s.name, s.arg_count, s.args)) =
      [(['a'], 2, [some ['a'], none]), (['b'], 2, [some ['b'], none]),
        (['c'], 2, [some ['c'], none])] ∧
    ((tokens (cstr line_long_arg)).map List.length = [4, 1100] ∧
      parse_command_value line_long_arg command_t.zeroed fresh_zeroed = none ∧
      (parse_command_fuel (line_long_arg.length + 1) line_long_arg command_t.zeroed
        fresh_zeroed).isSome = true) ∧
    parse_command_value line_echo_hello command_t.zeroed fresh_zeroed = some 0 := by
  set_option maxRecDepth 100000 in decide

/-! ## File descriptors -/

theorem fd_get_cons (t : fd_table) (a b : Nat) (e : endpoint) :
    fd_get ((a, e) :: t) b = if b = a then some e else fd_get t b := by
  unfold fd_get
  rw [List.lookup_cons]
  by_cases h : b = a
  · simp [h]
  · have hb : (b == a) = false := beq_eq_false_iff_ne.mpr h
    rw [hb]; simp [h]

/-- A command with a non-empty name that is no builtin is spawned: one
`fork`, a `wait` unless `background` is set, and `SUCCESS`. -/
theorem process_command_spawn (sys : sys_t) (fds : fd_table) (kl : Bool) (c : command_t)
    (h0 : c.name ≠ []) (hb : c.name ∉ builtin_names) :
    process_command sys fds kl c =
      if !c.background then
        ⟨SUCCESS, kl, [do_fork sys 0 (child_loop sys 0 fds c), action.wait]⟩
      else ⟨SUCCESS, kl, [do_fork sys 0 (child_loop sys 0 fds c)]⟩ := by
  simp only [builtin_names, List.mem_cons, List.mem_singleton, not_or, List.not_mem_nil,
    or_false] at hb
  obtain ⟨b1, b2, b3, b4, b5, b6, b7, b8⟩ := hb
  unfold process_command
  simp only [h0, b1, b2, b3, b4, b5, b6, b7, b8, if_false, false_and]

/-- C7 at its failing input, the command `nosuchcmd`: whatever the system
calls do (the shell never observes the child's `execv`, and `wait(0)`
discards its status), `process_command` returns `SUCCESS`, not `UNKNOWN`,
and writes no message; all it does is fork and wait. -/
theorem C7_not_found_returns_success (sys : sys_t) (fds : fd_table) (kl : Bool) :
    (process_command sys fds kl
      (parse_command line_nosuchcmd command_t.zeroed fresh_zeroed)).code = SUCCESS ∧
    (process_command sys fds kl
      (parse_command line_nosuchcmd command_t.zeroed fresh_zeroed)).code ≠ UNKNOWN ∧
    (process_command sys fds kl
      (parse_command line_nosuchcmd command_t.zeroed fresh_zeroed)).actions =
      [do_fork sys 0 (child_loop sys 0 fds
        (parse_command line_nosuchcmd command_t.zeroed fresh_zeroed)), action.wait] ∧
    (∀ text, action.print text ∉ (process_command sys fds kl
      (parse_command line_nosuchcmd command_t.zeroed fresh_zeroed)).actions) := by
  have h0 : (parse_command line_nosuchcmd command_t.zeroed fresh_zeroed).name ≠ [] := by decide
  have hb : (parse_command line_nosuchcmd command_t.zeroed fresh_zeroed).name ∉ builtin_names := by
    decide
  have hbg : (parse_command line_nosuchcmd command_t.zeroed fresh_zeroed).background = false := by
    decide
  have hpc : process_command sys fds kl
      (parse_command line_nosuchcmd command_t.zeroed fresh_zeroed) =
      ⟨SUCCESS, kl, [do_fork sys 0 (child_loop sys 0 fds
        (parse_command line_nosuchcmd command_t.zeroed fresh_zeroed)), action.wait]⟩ := by
    rw [process_command_spawn sys fds kl _ h0 hb, hbg]; rfl
  rw [hpc]
  refine ⟨rfl, (by show SUCCESS ≠ UNKNOWN; decide), rfl, ?_⟩
  intro text hmem
  simp only [List.mem_cons, List.mem_singleton, List.not_mem_nil, or_false] at hmem
  rcases hmem with h | h
  · unfold do_fork at h; split at h <;> cases h
  · cases h


/-! ## Redirections are never applied -/

theorem clear_redirects_fields : ∀ c : command_t,
    (clear_redirects c).name = c.name ∧ (clear_redirects c).background = c.background ∧
    (clear_redirects c).arg_count = c.arg_count ∧ (clear_redirects c).args = c.args
  | .mk _ _ _ _ _ _ none => ⟨rfl, rfl, rfl, rfl⟩
  | .mk _ _ _ _ _ _ (some _) => ⟨rfl, rfl, rfl, rfl⟩

theorem child_loop_clear_redirects (sys : sys_t) : ∀ (c : command_t) (k : Nat) (fds : fd_table),
    child_loop sys k fds (clear_redirects c) = child_loop sys k fds c
  | .mk _ _ _ _ _ _ none, _, _ => rfl
  | .mk name b a n args r (some nx), k, fds => by
    simp only [clear_redirects, child_loop]
    rw [child_loop_clear_redirects sys nx]

theorem fd_get_mem (t : fd_table) (a : Nat) (e : endpoint) (h : fd_get t a = some e) :
    (a, e) ∈ t := by
  induction t with
  | nil => simp [fd_get] at h
  | cons p t ih =>
    obtain ⟨x, e'⟩ := p
    rw [fd_get_cons] at h
    by_cases hx : a = x
    · subst hx; simp at h; subst h; exact List.mem_cons_self _ _
    · simp [hx] at h; exact List.mem_cons_of_mem _ (ih h)

theorem fsp_close (fds0 t : fd_table) (a : Nat) (h : from_shell_or_pipe fds0 t) :
    from_shell_or_pipe fds0 (sys_close t a) :=
  fun x hx => h x (List.mem_of_mem_filter hx)

theorem fsp_dup2 (fds0 t : fd_table) (o n : Nat) (h : from_shell_or_pipe fds0 t) :
    from_shell_or_pipe fds0 (sys_dup2 t o n) := by
  unfold sys_dup2
  cases hg : fd_get t o with
  | none => exact h
  | some e =>
    simp only
    split
    · exact h
    · intro x hx
      rcases List.mem_cons.mp hx with hx | hx
      · subst hx; exact h (o, e) (fd_get_mem t o e hg)
      · exact fsp_close fds0 t n h x hx

theorem fsp_pipe (fds0 t : fd_table) (k : Nat) (h : from_shell_or_pipe fds0 t) :
    from_shell_or_pipe fds0 (sys_pipe t k).1 := by
  intro x hx
  simp only [sys_pipe, List.mem_cons] at hx
  rcases hx with hx | hx | hx
  · subst hx; right; rfl
  · subst hx; right; rfl
  · exact h x hx

/-- Whatever the system calls do, every descriptor of every process of the
child refers to something the starting table referred to, or to a pipe end. -/
theorem child_loop_from_shell (sys : sys_t) (fds0 : fd_table) :
    ∀ (c : command_t) (k : Nat) (t : fd_table), from_shell_or_pipe fds0 t →
      ∀ p ∈ (child_loop sys k t c).1, from_shell_or_pipe fds0 p.fds
  | .mk _ _ _ _ _ _ none, _, t, h => by
    intro p hp
    simp only [child_loop, List.mem_singleton] at hp
    subst hp; exact h
  | .mk name b a n args r (some nx), k, t, h => by
    intro p hp
    have h1 : from_shell_or_pipe fds0
        (if sys.pipe_ok k then sys_pipe t k else (t, sys.garbage k)).1 := by
      split
      · exact fsp_pipe fds0 t k h
      · exact h
    simp only [child_loop, List.mem_append] at hp
    rcases hp with hp | hp
    · split at hp
      · simp only [List.mem_singleton] at hp
        subst hp
        exact fsp_dup2 _ _ _ _ (fsp_close _ _ _ h1)
      · simp at hp
    · exact child_loop_from_shell sys fds0 nx (k + 1) _
        (fsp_dup2 _ _ _ _ (fsp_close _ _ _ h1)) p hp

/-- C8, as stated, fails on the code: for the line `cmd >f` the OUT slot
holds `f`, yet the stage is executed with descriptor 1 still referring to the
shell's standard output; no descriptor of it refers to an opened file, and
all `process_command` does is fork and wait. -/
theorem C8_counterexample :
    (parse_command line_cmd_gt_f command_t.zeroed fresh_zeroed).redirects.r1 = some ['f'] ∧
    (process_command sys_all_ok fds_terminal false
      (parse_command line_cmd_gt_f command_t.zeroed fresh_zeroed)).actions =
      [action.fork true [⟨bin_path ['c', 'm', 'd'], [some ['c', 'm', 'd'], none], fds_terminal⟩] 0,
        action.wait] ∧
    (spawned (process_command sys_all_ok fds_terminal false
      (parse_command line_cmd_gt_f command_t.zeroed fresh_zeroed))).getLast?.bind
        (fun p => fd_get p.fds 1) = some (endpoint.inherited 1) ∧
    (spawned (process_command sys_all_ok fds_terminal false
      (parse_command line_cmd_gt_f command_t.zeroed fresh_zeroed))).all
        (fun p => p.fds.all (fun x => !is_opened x.2)) = true := by
  decide

/-- C8, amended: for a chain whose head has a non-empty name that is no
builtin, `process_command` applies no redirection.  Its outcome is the one it
has on the chain with every redirection slot cleared, and every descriptor of
every stage it executes refers to something a descriptor of the shell
referred to, or to a pipe end: no file is opened for a stage. -/
theorem C8_redirects_not_applied (sys : sys_t) (fds : fd_table) (kl : Bool) (c : command_t)
    (h0 : c.name ≠ []) (hb : c.name ∉ builtin_names) :
    process_command sys fds kl c = process_command sys fds kl (clear_redirects c) ∧
    (∀ p ∈ spawned (process_command sys fds kl c), from_shell_or_pipe fds p.fds) ∧
    (∀ p ∈ spawned (process_command sys fds kl c), ∀ x ∈ p.fds, is_opened x.2 = true →
      ∃ y ∈ fds, y.2 = x.2) := by
  obtain ⟨f1, f2, _, _⟩ := clear_redirects_fields c
  have hsp : ∀ p ∈ spawned (process_command sys fds kl c), from_shell_or_pipe fds p.fds := by
    intro p hp
    rw [process_command_spawn sys fds kl c h0 hb] at hp
    have hp' : p ∈ (child_loop sys 0 fds c).1 := by
      unfold spawned do_fork at hp
      cases hbg : c.background <;> cases hfk : sys.fork_ok 0 <;>
        simp [hbg, hfk] at hp <;> exact hp
    exact child_loop_from_shell sys fds c 0 fds (fun x hx => Or.inl ⟨x, hx, rfl⟩) p hp'
  refine ⟨?_, hsp, ?_⟩
  · rw [process_command_spawn sys fds kl c h0 hb,
      process_command_spawn sys fds kl (clear_redirects c) (by rw [f1]; exact h0)
        (by rw [f1]; exact hb), f2, child_loop_clear_redirects]
  · intro p hp x hx hop
    rcases hsp p hp x hx with h | h
    · exact h
    · cases hx2 : x.2 <;> simp [hx2, is_opened, is_pipe_end] at hop h

/-- C8, amended, at the line `cmd >f`, all calls succeeding, in a shell on a terminal. -/
theorem C8_redirects_not_applied_witness :
    ((parse_command line_cmd_gt_f command_t.zeroed fresh_zeroed).name ≠ [] ∧
      (parse_command line_cmd_gt_f command_t.zeroed fresh_zeroed).name ∉ builtin_names) ∧
    (process_command sys_all_ok fds_terminal false
        (parse_command line_cmd_gt_f command_t.zeroed fresh_zeroed) =
      process_command sys_all_ok fds_terminal false
        (clear_redirects (parse_command line_cmd_gt_f command_t.zeroed fresh_zeroed)) ∧
    (∀ p ∈ spawned (process_command sys_all_ok fds_terminal false
        (parse_command line_cmd_gt_f command_t.zeroed fresh_zeroed)),
      from_shell_or_pipe fds_terminal p.fds) ∧
    (∀ p ∈ spawned (process_command sys_all_ok fds_terminal false
        (parse_command line_cmd_gt_f command_t.zeroed fresh_zeroed)),
      ∀ x ∈ p.fds, is_opened x.2 = true → ∃ y ∈ fds_terminal, y.2 = x.2)) :=
  ⟨⟨by decide, by decide⟩,
    C8_redirects_not_applied sys_all_ok fds_terminal false
      (parse_command line_cmd_gt_f command_t.zeroed fresh_zeroed) (by decide) (by decide)⟩

/-- C10 at its failing input, the chain of `a | b | c` with every call
succeeding in a shell on a terminal: when the third stage executes, its
descriptor 0 is the read end of pipe 1 and its descriptor 1 is the shell's,
yet descriptor 3 still refers to the read end of pipe 0, which the looping
process bound to descriptor 0 earlier and never closed. -/
theorem C10_stale_pipe_descriptor :
    (spawned (process_command sys_all_ok fds_terminal false
      (parse_command line_a_b_c command_t.zeroed fresh_zeroed)))[2]?.map
        (fun p => (p.path, fd_get p.fds 0, fd_get p.fds 1, fd_get p.fds 3)) =
      some (bin_path ['c'], some (endpoint.pipe_read 1), some (endpoint.inherited 1),
        some (endpoint.pipe_read 0)) := by
  decide

/-! ## Foreground and background -/

theorem do_fork_ne_wait (sys : sys_t) (n : Nat) (child : List proc_t × Nat) :
    do_fork sys n child ≠ action.wait := by
  unfold do_fork; split <;> simp

/-- C11: for a command with a non-empty name that is no builtin, the shell
process calls `wait` exactly when `background` is false: then it forks and
waits once; when `background` is true it forks and returns `SUCCESS` without
any `wait`. -/
theorem C11_wait_iff_foreground (sys : sys_t) (fds : fd_table) (kl : Bool) (c : command_t)
    (h0 : c.name ≠ []) (hb : c.name ∉ builtin_names) :
    (action.wait ∈ (process_command sys fds kl c).actions ↔ c.background = false) ∧
    (c.background = false → (process_command sys fds kl c).actions =
      [do_fork sys 0 (child_loop sys 0 fds c), action.wait]) ∧
    (c.background = true →
      (process_command sys fds kl c).actions = [do_fork sys 0 (child_loop sys 0 fds c)] ∧
      action.wait ∉ (process_command sys fds kl c).actions ∧
      (process_command sys fds kl c).code = SUCCESS) := by
  have hne := do_fork_ne_wait sys 0 (child_loop sys 0 fds c)
  rw [process_command_spawn sys fds kl c h0 hb]
  cases hbg : c.background
  · simp
  · simp [hne.symm]

/-- C11 at the line `sleep 5 &`: background is set, the shell forks and does not wait. -/
theorem C11_wait_iff_foreground_witness :
    ((parse_command line_sleep_5_sp_amp command_t.zeroed fresh_zeroed).name ≠ [] ∧
      (parse_command line_sleep_5_sp_amp command_t.zeroed fresh_zeroed).name ∉ builtin_names) ∧
    ((action.wait ∈ (process_command sys_all_ok fds_terminal false
        (parse_command line_sleep_5_sp_amp command_t.zeroed fresh_zeroed)).actions ↔
      (parse_command line_sleep_5_sp_amp command_t.zeroed fresh_zeroed).background = false) ∧
    ((parse_command line_sleep_5_sp_amp command_t.zeroed fresh_zeroed).background = false →
      (process_command sys_all_ok fds_terminal false
        (parse_command line_sleep_5_sp_amp command_t.zeroed fresh_zeroed)).actions =
      [do_fork sys_all_ok 0 (child_loop sys_all_ok 0 fds_terminal
        (parse_command line_sleep_5_sp_amp command_t.zeroed fresh_zeroed)), action.wait]) ∧
    ((parse_command line_sleep_5_sp_amp command_t.zeroed fresh_zeroed).background = true →
      (process_command sys_all_ok fds_terminal false
        (parse_command line_sleep_5_sp_amp command_t.zeroed fresh_zeroed)).actions =
        [do_fork sys_all_ok 0 (child_loop sys_all_ok 0 fds_terminal
          (parse_command line_sleep_5_sp_amp command_t.zeroed fresh_zeroed))] ∧
      action.wait ∉ (process_command sys_all_ok fds_terminal false
        (parse_command line_sleep_5_sp_amp command_t.zeroed fresh_zeroed)).actions ∧
      (process_command sys_all_ok fds_terminal false
        (parse_command line_sleep_5_sp_amp command_t.zeroed fresh_zeroed)).code = SUCCESS)) ∧
    ((parse_command line_sleep_5_sp_amp command_t.zeroed fresh_zeroed).background = true ∧
      (process_command sys_all_ok fds_terminal false
        (parse_command line_sleep_5 command_t.zeroed fresh_zeroed)).actions.getLast? =
        some action.wait) :=
  ⟨⟨by decide, by decide⟩,
    C11_wait_iff_foreground sys_all_ok fds_terminal false
      (parse_command line_sleep_5_sp_amp command_t.zeroed fresh_zeroed) (by decide) (by decide),
    by decide⟩

/-! ## The completion flag -/

theorem tokens_ne_nil (s : CStr) : ∀ t ∈ tokens s, t ≠ [] := by
  intro t ht
  unfold tokens at ht
  have := (List.mem_filter.mp ht).2
  intro h; subst h; simp at this

/-- A line whose last byte after trimming is not a delimiter has a first token. -/
theorem name_ne_nil_of_last (buf : List Char) (c : command_t) (fresh : Nat → command_t)
    (e : Char) (h : (trim_ws (cstr buf)).getLast? = some e) :
    (parse_command buf c fresh).name ≠ [] := by
  obtain ⟨hname, _, _⟩ := parse_command_flags buf c fresh
  rw [hname]
  obtain ⟨y, hy⟩ : ∃ y, trim_ws (cstr buf) = y ++ [e] := by
    rcases List.eq_nil_or_concat (trim_ws (cstr buf)) with h0 | ⟨y, e', h1⟩
    · rw [h0] at h; simp at h
    · rw [List.concat_eq_append] at h1
      rw [h1] at h; simp at h; subst h; exact ⟨y, h1⟩
  obtain ⟨t, _, hlast, _⟩ := last_token_last_char (cstr buf) (cstr_is_NF buf) y e hy
  cases hts : tokens (cstr buf) with
  | nil => rw [hts] at hlast; simp at hlast
  | cons a l =>
    have : a ∈ tokens (cstr buf) := by rw [hts]; exact List.mem_cons_self _ _
    simpa using tokens_ne_nil _ a this

theorem child_loop_set_auto_complete (sys : sys_t) (c : command_t) (b : Bool) (k : Nat)
    (fds : fd_table) :
    child_loop sys k fds (c.set_auto_complete b) = child_loop sys k fds c := by
  cases c with
  | mk m bg a n g r x =>
    cases x with
    | none => rfl
    | some nx => simp only [command_t.set_auto_complete, child_loop]

/-- No statement of `process_command` or of a handler reads `auto_complete`. -/
theorem process_command_set_auto_complete (sys : sys_t) (fds : fd_table) (kl : Bool)
    (c : command_t) (b : Bool) :
    process_command sys fds kl (c.set_auto_complete b) = process_command sys fds kl c := by
  simp only [process_command, execute_hdiff, mkdir_command, rmdir_command, execute_countlines,
    execute_scoutword, execute_psvis, name_set_auto_complete, arg_count_set_auto_complete,
    args_set_auto_complete, background_set_auto_complete, child_loop_set_auto_complete]

theorem child_loop_ne_nil (sys : sys_t) : ∀ (c : command_t) (k : Nat) (fds : fd_table),
    (child_loop sys k fds c).1 ≠ []
  | .mk _ _ _ _ _ _ none, _, _ => by simp [child_loop]
  | .mk _ _ _ _ _ _ (some nx), k, fds => by
    simp only [child_loop]
    intro h
    exact child_loop_ne_nil sys nx _ _ (List.append_eq_nil.mp h).2

/-- C12, as stated, fails on the code: the command parsed from the line `ls?`
has `auto_complete` set, yet `process_command` forks a child that executes
`/bin/ls?` and waits for it; the command parsed from `mkdir x?` has the flag
set, yet the handler of `mkdir` is run and calls `mkdir` on `x?`. -/
theorem C12_counterexample :
    (parse_command line_ls_qmark command_t.zeroed fresh_zeroed).auto_complete = true ∧
    (process_command sys_all_ok fds_terminal false
      (parse_command line_ls_qmark command_t.zeroed fresh_zeroed)).actions =
      [action.fork true [⟨bin_path ['l', 's', QMARK], [some ['l', 's', QMARK], none],
        fds_terminal⟩] 0, action.wait] ∧
    spawned (process_command sys_all_ok fds_terminal false
      (parse_command line_ls_qmark command_t.zeroed fresh_zeroed)) ≠ [] ∧
    (parse_command line_mkdir_x_qmark command_t.zeroed fresh_zeroed).auto_complete = true ∧
    (process_command sys_all_ok fds_terminal false
      (parse_command line_mkdir_x_qmark command_t.zeroed fresh_zeroed)).actions =
      [action.call "mkdir" [some ['x', QMARK]],
        action.print "Directory '%s' created successfully."] := by
  decide

/-- C12, amended: `process_command` never reads `auto_complete`.  For a line
that ends with `?` after trimming, the parsed command has the flag set and a
non-empty name, the outcome of `process_command` (and of the loop body of
`main`) is the one it has with the flag at any other value, and when the name
is no builtin the shell forks as for any other line: the first action is the
`fork`, and a child that is created executes at least one stage. -/
theorem C12_auto_complete_ignored (sys : sys_t) (fds : fd_table) (kl : Bool)
    (buf : List Char) (c0 : command_t) (fresh : Nat → command_t)
    (h : (trim_ws (cstr buf)).getLast? = some QMARK) :
    (parse_command buf c0 fresh).auto_complete = true ∧
    (parse_command buf c0 fresh).name ≠ [] ∧
    (∀ b : Bool,
      process_command sys fds kl ((parse_command buf c0 fresh).set_auto_complete b) =
        process_command sys fds kl (parse_command buf c0 fresh) ∧
      main_step sys fds kl ((parse_command buf c0 fresh).set_auto_complete b) =
        main_step sys fds kl (parse_command buf c0 fresh)) ∧
    ((parse_command buf c0 fresh).name ∉ builtin_names →
      (process_command sys fds kl (parse_command buf c0 fresh)).actions.head? =
        some (do_fork sys 0 (child_loop sys 0 fds (parse_command buf c0 fresh))) ∧
      (sys.fork_ok 0 = true →
        spawned (process_command sys fds kl (parse_command buf c0 fresh)) ≠ [])) := by
  have hname := name_ne_nil_of_last buf c0 fresh QMARK h
  obtain ⟨_, _, hac⟩ := parse_command_flags buf c0 fresh
  refine ⟨?_, hname, ?_, ?_⟩
  · rw [hac, h]; simp
  · intro b
    refine ⟨process_command_set_auto_complete sys fds kl _ b, ?_⟩
    simp only [main_step, process_command_set_auto_complete]
  · intro hb
    rw [process_command_spawn sys fds kl _ hname hb]
    have hne := child_loop_ne_nil sys (parse_command buf c0 fresh) 0 fds
    constructor
    · split <;> rfl
    · intro hf
      split <;> simp [spawned, do_fork, hf, hne]

/-- C12, amended, at the line `ls?`. -/
theorem C12_auto_complete_ignored_witness :
    (trim_ws (cstr line_ls_qmark)).getLast? = some QMARK ∧
    ((parse_command line_ls_qmark command_t.zeroed fresh_zeroed).auto_complete = true ∧
    (parse_command line_ls_qmark command_t.zeroed fresh_zeroed).name ≠ [] ∧
    (∀ b : Bool,
      process_command sys_all_ok fds_terminal false
        ((parse_command line_ls_qmark command_t.zeroed fresh_zeroed).set_auto_complete b) =
        process_command sys_all_ok fds_terminal false
          (parse_command line_ls_qmark command_t.zeroed fresh_zeroed) ∧
      main_step sys_all_ok fds_terminal false
        ((parse_command line_ls_qmark command_t.zeroed fresh_zeroed).set_auto_complete b) =
        main_step sys_all_ok fds_terminal false
          (parse_command line_ls_qmark command_t.zeroed fresh_zeroed)) ∧
    ((parse_command line_ls_qmark command_t.zeroed fresh_zeroed).name ∉ builtin_names →
      (process_command sys_all_ok fds_terminal false
        (parse_command line_ls_qmark command_t.zeroed fresh_zeroed)).actions.head? =
        some (do_fork sys_all_ok 0 (child_loop sys_all_ok 0 fds_terminal
          (parse_command line_ls_qmark command_t.zeroed fresh_zeroed))) ∧
      (sys_all_ok.fork_ok 0 = true →
        spawned (process_command sys_all_ok fds_terminal false
          (parse_command line_ls_qmark command_t.zeroed fresh_zeroed)) ≠ []))) :=
  ⟨by decide,
    C12_auto_complete_ignored sys_all_ok fds_terminal false line_ls_qmark command_t.zeroed
      fresh_zeroed (by decide)⟩

/-! ## Return codes -/

theorem strip_quotes_ne_nil (t : CStr) (h : t ≠ []) : strip_quotes t ≠ [] := by
  unfold strip_quotes
  split
  · rename_i hc
    intro h0
    have hl := congrArg List.length h0
    simp at hl
    omega
  · exact h

/-- Every argument string the parser stores in a call that returns is
non-empty, so that the scan of `execute_scoutword`, which advances by the
length of the word, ends. -/
theorem parsed_args_ne_nil (buf : List Char) (c : command_t) (fresh : Nat → command_t)
    (hret : parse_command_value buf c fresh = some 0)
    (a : CStr) (h : some a ∈ (parse_command buf c fresh).args.tail) : a ≠ [] := by
  obtain ⟨_, _, hargs, _⟩ := parse_command_result buf c fresh hret
  rw [hargs] at h
  simp only [List.tail_cons, List.mem_append, List.mem_map, List.mem_singleton] at h
  rcases h with ⟨x, hx, hxa⟩ | h
  · cases hxa
    unfold normal_args at hx
    obtain ⟨t, ht, rfl⟩ := List.mem_map.mp hx
    have ht1 : t ∈ stage_tokens (tokens (cstr buf)) := (List.mem_filter.mp ht).1
    have ht2 : t ∈ (tokens (cstr buf)).tail := (List.takeWhile_sublist _).subset ht1
    exact strip_quotes_ne_nil t (tokens_ne_nil _ t (List.mem_of_mem_tail ht2))
  · cases h

theorem execute_hdiff_code (c : command_t) :
    (execute_hdiff c).1 = SUCCESS ∨ (execute_hdiff c).1 = UNKNOWN := by
  unfold execute_hdiff; split_ifs <;> simp

theorem mkdir_command_code (sys : sys_t) (c : command_t) :
    (mkdir_command sys c).1 = SUCCESS ∨ (mkdir_command sys c).1 = UNKNOWN := by
  unfold mkdir_command; split_ifs <;> simp

theorem rmdir_command_code (sys : sys_t) (c : command_t) :
    (rmdir_command sys c).1 = SUCCESS ∨ (rmdir_command sys c).1 = UNKNOWN := by
  unfold rmdir_command; split_ifs <;> simp

theorem execute_countlines_code (sys : sys_t) (c : command_t) :
    (execute_countlines sys c).1 = SUCCESS ∨ (execute_countlines sys c).1 = UNKNOWN := by
  unfold execute_countlines; split_ifs <;> simp

theorem execute_scoutword_code (sys : sys_t) (c : command_t) :
    (execute_scoutword sys c).1 = SUCCESS ∨ (execute_scoutword sys c).1 = UNKNOWN := by
  unfold execute_scoutword; split_ifs <;> simp

theorem execute_psvis_code (sys : sys_t) (fds : fd_table) (kl : Bool) (c : command_t) :
    (execute_psvis sys fds kl c).code = SUCCESS ∨ (execute_psvis sys fds kl c).code = UNKNOWN := by
  unfold execute_psvis
  split
  · exact Or.inr rfl
  · dsimp only
    split
    · exact Or.inr rfl
    · exact Or.inl rfl

/-- The codes of `process_command` when the name is neither empty nor `exit`. -/
theorem process_command_code_other (sys : sys_t) (fds : fd_table) (kl : Bool) (c : command_t)
    (h0 : c.name ≠ []) (h1 : c.name ≠ "exit".toList) :
    (process_command sys fds kl c).code = SUCCESS ∨
      (process_command sys fds kl c).code = UNKNOWN := by
  unfold process_command
  rw [if_neg h0, if_neg h1]
  split
  · split <;> exact Or.inl rfl
  split
  · exact execute_hdiff_code c
  split
  · exact mkdir_command_code sys c
  split
  · exact rmdir_command_code sys c
  split
  · exact execute_countlines_code sys c
  split
  · exact execute_scoutword_code sys c
  split
  · exact execute_psvis_code sys fds kl c
  · dsimp only
    split <;> exact Or.inl rfl

/-- C13: whatever the command and whatever the outcomes of the system calls,
`process_command` returns `SUCCESS`, `EXIT` or `UNKNOWN`, and it returns
`EXIT` exactly when the name is `exit`; so the loop of `main` is left after
`process_command` exactly when the name is `exit`. -/
theorem C13_return_codes (sys : sys_t) (fds : fd_table) (kl : Bool) (c : command_t) :
    ((process_command sys fds kl c).code = SUCCESS ∨
      (process_command sys fds kl c).code = EXIT ∨
      (process_command sys fds kl c).code = UNKNOWN) ∧
    ((process_command sys fds kl c).code = EXIT ↔ c.name = "exit".toList) ∧
    ((main_step sys fds kl c).2 = true ↔ c.name = "exit".toList) ∧
    (main_step sys fds kl c).1 = process_command sys fds kl c := by
  have hS : SUCCESS ≠ EXIT := by decide
  have hU : UNKNOWN ≠ EXIT := by decide
  have hnil : ([] : CStr) ≠ "exit".toList := by decide
  have key : ((process_command sys fds kl c).code = SUCCESS ∨
      (process_command sys fds kl c).code = EXIT ∨
      (process_command sys fds kl c).code = UNKNOWN) ∧
      ((process_command sys fds kl c).code = EXIT ↔ c.name = "exit".toList) := by
    by_cases h0 : c.name = []
    · have hpc : process_command sys fds kl c = ⟨SUCCESS, kl, []⟩ := by
        unfold process_command; rw [if_pos h0]
      rw [hpc, h0]
      exact ⟨Or.inl rfl, fun h => absurd h hS, fun h => absurd h hnil⟩
    · by_cases h1 : c.name = "exit".toList
      · have hpc : (process_command sys fds kl c).code = EXIT := by
          unfold process_command; rw [if_neg h0, if_pos h1]; split <;> rfl
        exact ⟨Or.inr (Or.inl hpc), fun _ => h1, fun _ => hpc⟩
      · rcases process_command_code_other sys fds kl c h0 h1 with h | h
        · rw [h]
          exact ⟨Or.inl rfl, fun h => absurd h hS, fun h => absurd h h1⟩
        · rw [h]
          exact ⟨Or.inr (Or.inr rfl), fun h => absurd h hU, fun h => absurd h h1⟩
  refine ⟨key.1, key.2, ?_, rfl⟩
  rw [← key.2]
  simp [main_step]

end Shell
